import Mathlib

/-!
Verification of the Babel lexer (`babelsdk/babel/lexer.py`).

The lexer is a PLY (`ply.lex`) module: an indentation-sensitive tokenizer with a
`freetext` sub-state for `::` documentation blocks, a FIFO queue (`tokens_queue`)
used to return several tokens from one scan step (`MultiToken`), and end-of-input
closing of open indentation (`BabelLexer.token`).

The embedding models the PLY scanning engine as it executes this module:
* rules are attempted in the priority PLY derives from the module: function rules
  in source-definition order (`t_BOOLEAN`, `t_NULL`, `t_ID`, `t_PATH`,
  `t_DOUBLE_COLON`, [`t_freetext_LINE`], `t_FLOAT`, `t_INTEGER`, `t_STRING`,
  `t_comment`, `t_NEWLINE`), then the string rules (`t_LPAR` .. `t_COLON`);
  the first rule whose regex matches at the cursor wins (Python `re` alternation);
* characters of the state's ignore set (`t_ignore = t_freetext_ignore = ' \t'`)
  are skipped before any rule is attempted;
* when no rule matches, `t_error` logs and skips one character;
* at end of input PLY sets `lexpos` one past the end (`self.lexpos = lexpos + 1`)
  and returns `None`;
* Python 2 arithmetic: `%` is a floor (Euclidean for positive modulus) remainder
  and `/` on ints is floor division, modelled by `Int.emod` / `Int.fdiv`;
* Python `bool(s)` on a string is truth of non-emptiness, modelled by `pyBool`.

Machine text is a `List Char`; a scan either produces a value or raises, modelled
with `Except String`.
-/

deriving instance DecidableEq for Except

namespace Babel

/-- Convert a literal to the character list the lexer scans. -/
def chars (s : String) : List Char := s.data

/-- Token kinds: the module's `tokens` tuple together with the reclassification
targets `RESERVED.values()`. -/
inductive TokType where
  | COLON | ID | KEYWORD | PATH
  | DOUBLE_COLON | LINE
  | DEDENT | INDENT | NEWLINE
  | COMMA | EQ | LPAR | RPAR
  | BOOLEAN | FLOAT | INTEGER | NULL | STRING
  | ERROR | EXTRAS | INCLUDE | OP | REQUEST | RESPONSE
  deriving DecidableEq, Repr

/-- Token values: PLY stores the matched lexeme, which rule actions replace by a
boolean (`t_BOOLEAN`), `None` (`t_NULL`), an int (`t_INTEGER`), a float
(`t_FLOAT`, kept as its lexeme here; no claim inspects float arithmetic) or the
unescaped string contents (`t_STRING`). -/
inductive TokValue where
  | str (s : List Char)
  | boolV (b : Bool)
  | nullV
  | intV (n : Nat)
  | floatV (s : List Char)
  deriving DecidableEq, Repr

/-- A `ply.lex.LexToken`: type, value, 1-based line, char offset of the match. -/
structure Token where
  type : TokType
  value : TokValue
  lineno : Nat
  lexpos : Nat
  deriving DecidableEq, Repr

/-- `_create_token` helper. -/
def mkTok (type : TokType) (value : TokValue) (lineno lexpos : Nat) : Token :=
  ⟨type, value, lineno, lexpos⟩

/-! ### Character classes (ASCII, as for Python 2 `str` regexes) -/

def isWordChar (c : Char) : Bool := c.isAlphanum || c = '_'

def isIdStart (c : Char) : Bool := c.isAlpha || c = '_'

def isIdCont (c : Char) : Bool := c.isAlphanum || c = '_' || c = '-'

def isPathChar (c : Char) : Bool := c = '/' || c.isAlphanum || c = '_' || c = '-'

/-- Characters stripped by Python 2 `str.lstrip()` (`str.isspace`). -/
def pySpace (c : Char) : Bool :=
  c = ' ' || c = '\t' || c = '\n' || c = '\r' || c = '\x0b' || c = '\x0c'

/-- Line terminators recognized by Python 2 `str.splitlines`. -/
def isLineBreak (c : Char) : Bool := c = '\n' || c = '\r'

/-- The ignore set `' \t'` shared by the INITIAL and freetext states. -/
def isSpaceTab (c : Char) : Bool := c = ' ' || c = '\t'

/-- Is the newline character (Bool form used by the matchers). -/
def isNl (c : Char) : Bool := c == '\n'

/-- Is not the newline character (Bool form used by the matchers). -/
def neNl (c : Char) : Bool := c != '\n'

def countNl (l : List Char) : Nat := l.countP isNl

/-! ### Regex matchers

Each matcher takes the unscanned suffix of the text (plus, where the pattern
begins with `\b`, the character before the cursor) and returns the length of the
match at the cursor, or `none`.  All the module's patterns are deterministic
enough that Python's leftmost-greedy backtracking semantics reduce to these
direct computations. -/

/-- Start-of-match word boundary `\b` (the first matched char is a word char). -/
def boundaryBefore (prev : Option Char) : Bool :=
  match prev with
  | none => true
  | some c => !isWordChar c

/-- End-of-match word boundary `\b` (the last matched char is a word char). -/
def boundaryAfter (l : List Char) : Bool :=
  match l with
  | [] => true
  | c :: _ => !isWordChar c

/-- `t_BOOLEAN` pattern `\btrue\b|\bfalse\b`. -/
def matchBOOLEAN (prev : Option Char) (rest : List Char) : Option Nat :=
  if boundaryBefore prev then
    if (chars "true").isPrefixOf rest && boundaryAfter (rest.drop 4) then some 4
    else if (chars "false").isPrefixOf rest && boundaryAfter (rest.drop 5) then some 5
    else none
  else none

/-- `t_NULL` pattern `\bnull\b`. -/
def matchNULL (prev : Option Char) (rest : List Char) : Option Nat :=
  if boundaryBefore prev then
    if (chars "null").isPrefixOf rest && boundaryAfter (rest.drop 4) then some 4
    else none
  else none

/-- `t_ID` pattern `[a-zA-Z_][a-zA-Z0-9_-]*`. -/
def matchID (rest : List Char) : Option Nat :=
  match rest with
  | [] => none
  | c :: cs => if isIdStart c then some (1 + (cs.takeWhile isIdCont).length) else none

/-- `t_PATH` pattern `\/[/a-zA-Z0-9_-]*`. -/
def matchPATH (rest : List Char) : Option Nat :=
  match rest with
  | [] => none
  | c :: cs => if c = '/' then some (1 + (cs.takeWhile isPathChar).length) else none

/-- `t_DOUBLE_COLON` pattern `::`. -/
def matchDOUBLE_COLON (rest : List Char) : Option Nat :=
  match rest with
  | ':' :: ':' :: _ => some 2
  | _ => none

def digitRun (l : List Char) : Nat := (l.takeWhile Char.isDigit).length

/-- The optional exponent group `(E[\+-]?\d+)?` of `t_FLOAT`: length of the
exponent if it matches, else 0 (the group is skipped). -/
def expOpt (l : List Char) : Nat :=
  match l with
  | 'E' :: r =>
    match r with
    | c :: r2 =>
      if c = '+' || c = '-' then
        (if digitRun r2 = 0 then 0 else 2 + digitRun r2)
      else (if digitRun r = 0 then 0 else 1 + digitRun r)
    | [] => 0
  | _ => 0

/-- The mandatory exponent `E[\+-]?\d+` of `t_FLOAT`'s second alternative. -/
def expMand (l : List Char) : Option Nat :=
  match l with
  | 'E' :: r =>
    match r with
    | c :: r2 =>
      if c = '+' || c = '-' then
        (if digitRun r2 = 0 then none else some (2 + digitRun r2))
      else (if digitRun r = 0 then none else some (1 + digitRun r))
    | [] => none
  | _ => none

/-- First alternative of `t_FLOAT`: `(\d*\.\d+)(E[\+-]?\d+)?`. -/
def matchFLOATdec (rest : List Char) : Option Nat :=
  match rest.drop (digitRun rest) with
  | '.' :: r2 =>
    if digitRun r2 = 0 then none
    else some (digitRun rest + 1 + digitRun r2 + expOpt (r2.drop (digitRun r2)))
  | _ => none

/-- Second alternative of `t_FLOAT`: `[1-9]\d*E[\+-]?\d+`. -/
def matchFLOATexp (rest : List Char) : Option Nat :=
  match rest with
  | c :: cs =>
    if '1' ≤ c && c ≤ '9' then
      match expMand (cs.drop (digitRun cs)) with
      | some m => some (1 + digitRun cs + m)
      | none => none
    else none
  | [] => none

/-- `t_FLOAT` pattern `((\d*\.\d+)(E[\+-]?\d+)?|([1-9]\d*E[\+-]?\d+))`;
the first alternative is preferred, as in Python `re`. -/
def matchFLOAT (rest : List Char) : Option Nat :=
  match matchFLOATdec rest with
  | some n => some n
  | none => matchFLOATexp rest

/-- `t_INTEGER` pattern `\d+`. -/
def matchINTEGER (rest : List Char) : Option Nat :=
  if digitRun rest = 0 then none else some (digitRun rest)

/-- Body of `t_STRING` after the opening quote: `([^\\"]|(\\.))*\"`, length up to
and including the closing quote.  `.` does not match a newline; `[^\\"]` does. -/
def strBody : List Char → Option Nat
  | [] => none
  | '"' :: _ => some 1
  | '\\' :: '\n' :: _ => none
  | '\\' :: [] => none
  | '\\' :: _ :: r => (strBody r).map (· + 2)
  | _ :: r => (strBody r).map (· + 1)

/-- `t_STRING` pattern `\"([^\\"]|(\\.))*\"`. -/
def matchSTRING (rest : List Char) : Option Nat :=
  match rest with
  | '"' :: r => (strBody r).map (· + 1)
  | _ => none

/-- `t_comment` pattern `[#][^\n]*\n+` (note the greedy `\n+`: the whole run of
newlines after the comment line is consumed). -/
def matchComment (rest : List Char) : Option Nat :=
  match rest with
  | '#' :: r =>
    let a := (r.takeWhile neNl).length
    let b := ((r.drop a).takeWhile isNl).length
    if b = 0 then none else some (1 + a + b)
  | _ => none

/-- `t_NEWLINE` pattern `\n+`. -/
def matchNEWLINE (rest : List Char) : Option Nat :=
  if (rest.takeWhile isNl).length = 0 then none
  else some (rest.takeWhile isNl).length

/-- `t_freetext_LINE` pattern `.*?\n`: everything up to and including the first
newline (`.` matches neither `\n` nor nothing else is excluded). -/
def matchLINE (rest : List Char) : Option Nat :=
  if (rest.takeWhile neNl).length = rest.length then none
  else some ((rest.takeWhile neNl).length + 1)

/-- The escape-resolving loop of `t_STRING` over `t.value[1:-1]`: `\n` and `\t`
become control characters, any other escaped character stands for itself, and a
trailing lone backslash is dropped (the loop ends with `escaped` set). -/
def unesc : List Char → List Char
  | [] => []
  | '\\' :: [] => []
  | '\\' :: c :: r => (if c = 'n' then '\n' else if c = 't' then '\t' else c) :: unesc r
  | c :: r => c :: unesc r

/-- Python 2 `int()` of a digit string. -/
def natOfDigits (l : List Char) : Nat :=
  l.foldl (fun a c => a * 10 + (c.toNat - ('0').toNat)) 0

/-- Python `bool()` of a string: truth of non-emptiness (`bool('false')` is
`True`). -/
def pyBool (s : List Char) : Bool := !s.isEmpty

/-- `KEYWORDS` list. -/
def KEYWORDS : List (List Char) :=
  [chars "alias", chars "doc", chars "example", chars "extends", chars "extras",
   chars "include", chars "namespace", chars "nullable", chars "op",
   chars "struct", chars "union", chars "request", chars "response",
   chars "error"]

/-- `RESERVED` dict: `RESERVED.get(value)`. -/
def RESERVED (s : List Char) : Option TokType :=
  if s = chars "error" then some .ERROR
  else if s = chars "extras" then some .EXTRAS
  else if s = chars "include" then some .INCLUDE
  else if s = chars "op" then some .OP
  else if s = chars "request" then some .REQUEST
  else if s = chars "response" then some .RESPONSE
  else none

/-! ### Lexer state and rule actions -/

/-- PLY states: `INITIAL` plus the exclusive `freetext` state. -/
inductive Mode where
  | INITIAL
  | freetext
  deriving DecidableEq, Repr

/-- The mutable scanning state: PLY's `lexdata`, `lexpos`, `lineno` and state
stack, together with the module's `self.cur_indent` (shared between the rule
callbacks and `BabelLexer.token`). -/
structure LexState where
  data : List Char
  pos : Nat
  lineno : Nat
  mode : Mode
  stack : List Mode
  curIndent : Int
  deriving DecidableEq, Repr

/-- The message of the two `raise Exception(...)` sites. -/
def indentMsg : String := "Indent was not divisible by 4."

/-- The lexeme PLY hands a rule: `lexdata[lexpos : lexpos + n]`. -/
def lexemeAt (st : LexState) (n : Nat) : List Char := (st.data.drop st.pos).take n

/-- One raw `lex.token()` outcome: a (possibly multi-) token with the state
after the rule action, end of input, a raised exception, or exhausted fuel. -/
inductive LexRes where
  | toks (t : Token) (ts : List Token) (st : LexState)
  | eof (st : LexState)
  | err (e : String)
  | nofuel
  deriving DecidableEq, Repr

/-- `t_BOOLEAN` action: `token.value = bool(token.value)`. -/
def actBOOLEAN (st : LexState) (n : Nat) : LexRes :=
  .toks (mkTok .BOOLEAN (.boolV (pyBool (lexemeAt st n))) st.lineno st.pos) []
    {st with pos := st.pos + n}

/-- `t_NULL` action: `token.value = None`. -/
def actNULL (st : LexState) (n : Nat) : LexRes :=
  .toks (mkTok .NULL .nullV st.lineno st.pos) [] {st with pos := st.pos + n}

/-- `t_ID` action: keywords become `KEYWORD` unless reclassified by `RESERVED`. -/
def actID (st : LexState) (n : Nat) : LexRes :=
  let v := lexemeAt st n
  let ty := if KEYWORDS.contains v then (RESERVED v).getD .KEYWORD else .ID
  .toks (mkTok ty (.str v) st.lineno st.pos) [] {st with pos := st.pos + n}

/-- `t_PATH` action. -/
def actPATH (st : LexState) (n : Nat) : LexRes :=
  .toks (mkTok .PATH (.str (lexemeAt st n)) st.lineno st.pos) []
    {st with pos := st.pos + n}

/-- `t_DOUBLE_COLON` action: push the `freetext` state and force
`self.cur_indent += 4` (no INDENT token is emitted). -/
def actDOUBLE_COLON (st : LexState) (n : Nat) : LexRes :=
  .toks (mkTok .DOUBLE_COLON (.str (lexemeAt st n)) st.lineno st.pos) []
    {st with pos := st.pos + n, mode := .freetext, stack := st.mode :: st.stack,
             curIndent := st.curIndent + 4}

/-- `t_FLOAT` action (`float(...)`; the lexeme is kept as the value's carrier). -/
def actFLOAT (st : LexState) (n : Nat) : LexRes :=
  .toks (mkTok .FLOAT (.floatV (lexemeAt st n)) st.lineno st.pos) []
    {st with pos := st.pos + n}

/-- `t_INTEGER` action: `token.value = int(token.value)`. -/
def actINTEGER (st : LexState) (n : Nat) : LexRes :=
  .toks (mkTok .INTEGER (.intV (natOfDigits (lexemeAt st n))) st.lineno st.pos) []
    {st with pos := st.pos + n}

/-- `t_STRING` action: unescape `t.value[1:-1]`. -/
def actSTRING (st : LexState) (n : Nat) : LexRes :=
  .toks (mkTok .STRING (.str (unesc (((lexemeAt st n).drop 1).dropLast)))
      st.lineno st.pos) []
    {st with pos := st.pos + n}

/-- A string rule (`t_LPAR` .. `t_COLON`): token of the one-char lexeme. -/
def actPunct (ty : TokType) (st : LexState) : LexRes :=
  .toks (mkTok ty (.str (lexemeAt st 1)) st.lineno st.pos) []
    {st with pos := st.pos + 1}

/-- `t_comment` action: no token; advance `lineno` by the newlines consumed. -/
def actComment (st : LexState) (n : Nat) : LexState :=
  {st with pos := st.pos + n, lineno := st.lineno + countNl (lexemeAt st n)}

/-- `t_NEWLINE` action: count lines, then (unless at end of input or the next
physical line is empty) evaluate the indentation of the next line; an
indentation change not divisible by 4 raises; otherwise `delta` INDENT or
`|delta|` DEDENT tokens follow the NEWLINE token. -/
def actNEWLINE (st : LexState) (n : Nat) : LexRes :=
  let lexeme := lexemeAt st n
  let tok := mkTok .NEWLINE (.str lexeme) st.lineno st.pos
  let nlp := st.pos + n
  let st1 := {st with pos := nlp, lineno := st.lineno + countNl lexeme}
  let rest2 := st.data.drop nlp
  if rest2.isEmpty then .toks tok [] st1
  else
    let line := rest2.takeWhile (fun c => !isLineBreak c)
    if line.isEmpty then .toks tok [] st1
    else
      let indent : Int := (line.takeWhile pySpace).length
      let indentSpaces : Int := indent - st.curIndent
      if 0 < indentSpaces.emod 4 then .err indentMsg
      else
        let indentDelta := indentSpaces.fdiv 4
        let dentType := if 0 < indentDelta then TokType.INDENT else TokType.DEDENT
        let dent := mkTok dentType (.str [ '\t' ]) (tok.lineno + 1) nlp
        .toks tok (List.replicate indentDelta.natAbs dent)
          {st1 with curIndent := indent}

/-- `t_freetext_LINE` action: emit the LINE token; unless at end of input or the
next physical line is empty, evaluate its indentation; a drop below the baseline
emits DEDENTs, pops back to `INITIAL` and resets `cur_indent`; additional
indentation is ignored. -/
def actLINE (st : LexState) (n : Nat) : LexRes :=
  let lexeme := lexemeAt st n
  let tok := mkTok .LINE (.str lexeme) st.lineno st.pos
  let nlp := st.pos + n
  let st1 := {st with pos := nlp, lineno := st.lineno + countNl lexeme}
  let rest2 := st.data.drop nlp
  if rest2.isEmpty then .toks tok [] st1
  else
    let line := rest2.takeWhile (fun c => !isLineBreak c)
    if line.isEmpty then .toks tok [] st1
    else
      let indent : Int := (line.takeWhile pySpace).length
      let indentSpaces : Int := indent - st.curIndent
      if 0 < indentSpaces.emod 4 then .err indentMsg
      else
        let indentDelta := indentSpaces.fdiv 4
        if 0 ≤ indentDelta then .toks tok [] st1
        else
          let dent := mkTok .DEDENT (.str [ '\t' ]) (tok.lineno + 1) nlp
          match st1.stack with
          | m :: s =>
            .toks tok (List.replicate indentDelta.natAbs dent)
              {st1 with mode := m, stack := s, curIndent := indent}
          | [] => .err "pop from empty state stack"

/-- Outcome of attempting the active state's rules, in PLY priority order, at a
cursor where the next character is not ignored. -/
inductive HitRes where
  | res (r : LexRes)
  | cont (st : LexState)
  | miss
  deriving DecidableEq, Repr

/-- The character before the cursor, for the `\b` of `t_BOOLEAN` / `t_NULL`. -/
def prevChar (st : LexState) : Option Char :=
  if st.pos = 0 then none else st.data[st.pos - 1]?

/-- Attempt the `INITIAL` state's rules at the cursor, in PLY priority order
(function rules in definition order, then string rules): the first match wins.
`t_comment` consumes input but produces no token (`cont`); `miss` means no rule
matched, which `t_error` handles. -/
def normalHit (st : LexState) (rest : List Char) : HitRes :=
  match matchBOOLEAN (prevChar st) rest with
  | some n => .res (actBOOLEAN st n)
  | none =>
  match matchNULL (prevChar st) rest with
  | some n => .res (actNULL st n)
  | none =>
  match matchID rest with
  | some n => .res (actID st n)
  | none =>
  match matchPATH rest with
  | some n => .res (actPATH st n)
  | none =>
  match matchDOUBLE_COLON rest with
  | some n => .res (actDOUBLE_COLON st n)
  | none =>
  match matchFLOAT rest with
  | some n => .res (actFLOAT st n)
  | none =>
  match matchINTEGER rest with
  | some n => .res (actINTEGER st n)
  | none =>
  match matchSTRING rest with
  | some n => .res (actSTRING st n)
  | none =>
  match matchComment rest with
  | some n => .cont (actComment st n)
  | none =>
  match matchNEWLINE rest with
  | some n => .res (actNEWLINE st n)
  | none =>
  match rest with
  | '(' :: _ => .res (actPunct .LPAR st)
  | ')' :: _ => .res (actPunct .RPAR st)
  | '=' :: _ => .res (actPunct .EQ st)
  | ',' :: _ => .res (actPunct .COMMA st)
  | ':' :: _ => .res (actPunct .COLON st)
  | _ => .miss

/-- Attempt the `freetext` state's rules (only `t_freetext_LINE`). -/
def freetextHit (st : LexState) (rest : List Char) : HitRes :=
  match matchLINE rest with
  | some n => .res (actLINE st n)
  | none => .miss

/-- Attempt the active state's rules. -/
def stateHit (st : LexState) (rest : List Char) : HitRes :=
  match st.mode with
  | .INITIAL => normalHit st rest
  | .freetext => freetextHit st rest

/-- One `self.lex.token()` call: skip ignored characters, try the active state's
rules (`stateHit`), rerun the scan when a rule consumes input without producing
a token, skip one character via `t_error` when nothing matches, and at end of
input step `lexpos` past the end and report exhaustion.  Fuel bounds the
internal loop; `lexToken_ne_nofuel` shows `data.length + 1` fuel always
suffices. -/
def lexToken : Nat → LexState → LexRes
  | 0, _ => .nofuel
  | fuel + 1, st =>
    match st.data.drop st.pos with
    | [] => .eof {st with pos := st.pos + 1}
    | c :: cs =>
      if isSpaceTab c then lexToken fuel {st with pos := st.pos + 1}
      else
        match stateHit st (c :: cs) with
        | .res r => r
        | .cont st2 => lexToken fuel st2
        | .miss => lexToken fuel {st with pos := st.pos + 1}

/-! ### The `BabelLexer` driver -/

/-- `BabelLexer` instance state: `self.lex` (+ `self.cur_indent`, folded into
`LexState`), `self.tokens_queue`, `self.last_token`. -/
structure BabelLexer where
  lexSt : LexState
  tokensQueue : List Token
  lastToken : Option Token
  deriving DecidableEq, Repr

/-- A fresh PLY lexer over `data`: cursor 0, line 1, `INITIAL`, `cur_indent` 0. -/
def initLex (data : List Char) : LexState := ⟨data, 0, 1, .INITIAL, [], 0⟩

/-- `BabelLexer.__init__`: no input yet, `last_token = None`. -/
def newBabelLexer : BabelLexer := ⟨initLex [], [], none⟩

/-- `BabelLexer.input`: rebuild the PLY lexer, clear the queue, reset
`cur_indent`, and feed `file_data + '\n'` (the trailing newline is appended
unconditionally).  `last_token` is not reset. -/
def BabelLexer.input (b : BabelLexer) (fileData : List Char) : BabelLexer :=
  { lexSt := initLex (fileData ++ [ '\n' ]), tokensQueue := [], lastToken := b.lastToken }

/-- `BabelLexer.token`: pop the queue if non-empty; otherwise scan.  A
`MultiToken` queues its tail.  At end of input with `cur_indent > 0`, queue a
synthetic NEWLINE (unless the last token was a NEWLINE or LINE) and
`cur_indent / 4` DEDENTs, reset `cur_indent`, and pop.  Returns the next token
(`none` at exhaustion) or propagates a raised exception. -/
def BabelLexer.token (b : BabelLexer) : Except String (Option Token × BabelLexer) :=
  match b.tokensQueue with
  | t :: q => .ok (some t, {b with tokensQueue := q, lastToken := some t})
  | [] =>
    match lexToken (b.lexSt.data.length + 1) b.lexSt with
    | .toks t ts st => .ok (some t, ⟨st, ts, some t⟩)
    | .eof st =>
      if 0 < st.curIndent then
        let nlq : List Token :=
          match b.lastToken with
          | some lt =>
            if lt.type = .NEWLINE ∨ lt.type = .LINE then []
            else [mkTok .NEWLINE (.str [ '\n' ]) st.lineno st.pos]
          | none => []
        let q2 := nlq ++ List.replicate (st.curIndent.fdiv 4).toNat
            (mkTok .DEDENT (.str [ '\t' ]) st.lineno st.pos)
        match q2 with
        | t :: q3 => .ok (some t, ⟨{st with curIndent := 0}, q3, some t⟩)
        | [] => .error "pop from empty list"
      else .ok (none, ⟨st, [], none⟩)
    | .err e => .error e
    | .nofuel => .error "lexer out of fuel"

/-- Pull tokens until exhaustion (how `ply.yacc` / `BabelLexer.test` consume the
stream); a raised exception aborts with no token stream. -/
def runTokens : Nat → BabelLexer → Except String (List Token)
  | 0, _ => .error "driver out of fuel"
  | fuel + 1, b =>
    match b.token with
    | .error e => .error e
    | .ok (none, _) => .ok []
    | .ok (some t, b2) =>
      match runTokens fuel b2 with
      | .ok ts => .ok (t :: ts)
      | .error e => .error e

/-! ### Collected form of the scan, used to compute sufficient driver fuel -/

/-- End of a collected raw scan. -/
inductive ScanEnd where
  | ended (st : LexState)
  | failed (e : String)
  | gas
  deriving DecidableEq, Repr

/-- Collect every raw `lex.token()` result until end of input or an exception. -/
def rawScanAll : Nat → LexState → List (Token × List Token) × ScanEnd
  | 0, _ => ([], .gas)
  | fuel + 1, st =>
    match lexToken (st.data.length + 1) st with
    | .toks t ts st2 =>
      let r := rawScanAll fuel st2
      ((t, ts) :: r.1, r.2)
    | .eof st2 => ([], .ended st2)
    | .err e => ([], .failed e)
    | .nofuel => ([], .gas)

/-- Number of tokens in a collected scan. -/
def totalToks (L : List (Token × List Token)) : Nat :=
  L.foldr (fun p a => p.2.length + 1 + a) 0

/-- Flatten a collected scan into the token order the queue delivers. -/
def flatToks (L : List (Token × List Token)) : List Token :=
  L.foldr (fun p a => p.1 :: (p.2 ++ a)) []

/-- The collected raw scan of `data` (fuel `data.length + 2` always suffices,
`collect_not_gas`). -/
def collect (data : List Char) : List (Token × List Token) × ScanEnd :=
  rawScanAll (data.length + 2) (initLex data)

/-- Driver fuel sufficient to pull the whole stream of `data`. -/
def driverFuel (data : List Char) : Nat :=
  let r := collect data
  totalToks r.1 +
    (match r.2 with
     | .ended st => (st.curIndent.fdiv 4).toNat
     | _ => 0) + 8

/-- Tokenize a document: `input` on a fresh `BabelLexer`, then pull every token. -/
def tokenize (fileData : List Char) : Except String (List Token) :=
  runTokens (driverFuel (fileData ++ [ '\n' ])) (newBabelLexer.input fileData)

/-! ### Counting helpers -/

/-- Number of tokens of a given kind in a stream. -/
def countTok (ty : TokType) (ts : List Token) : Nat :=
  ts.countP (fun t => t.type == ty)

/-- Signed indentation account of a token list: each `INDENT` and each
`DOUBLE_COLON` raises the baseline by one step, each `DEDENT` lowers it. -/
def dentScore (ts : List Token) : Int :=
  (countTok .INDENT ts : Int) + (countTok .DOUBLE_COLON ts : Int)
    - (countTok .DEDENT ts : Int)

/-- State-stack well-formedness: `freetext` is only ever entered from `INITIAL`
by `t_DOUBLE_COLON`. -/
def WFST (st : LexState) : Prop :=
  (st.mode = .INITIAL ∧ st.stack = []) ∨ (st.mode = .freetext ∧ st.stack = [.INITIAL])

/-- The line-number accounting invariant: `lineno` never exceeds one plus the
number of newline characters before the cursor (`t_STRING` consumes newlines
without counting them, everything else counts what it consumes). -/
def LinenoInv (st : LexState) : Prop :=
  st.lineno ≤ 1 + countNl (st.data.take st.pos)

/-- The last token the driver has delivered after additionally emitting `l`,
given the previously delivered token. -/
def lastOr (l : List Token) (d : Option Token) : Option Token :=
  match l.getLast? with
  | some t => some t
  | none => d

/-- The synthetic closing tokens `BabelLexer.token` queues at end of input:
nothing when `cur_indent` is not positive; otherwise a NEWLINE (unless the last
delivered token was a NEWLINE or LINE) followed by `cur_indent / 4` DEDENTs. -/
def closingToks (st : LexState) (lt : Option Token) : List Token :=
  if 0 < st.curIndent then
    (match lt with
     | some t =>
       if t.type = .NEWLINE ∨ t.type = .LINE then []
       else [mkTok .NEWLINE (.str [ '
' ]) st.lineno st.pos]
     | none => []) ++
    List.replicate (st.curIndent.fdiv 4).toNat
      (mkTok .DEDENT (.str [ '	' ]) st.lineno st.pos)
  else []

/-- Projections of an explicit `LexState` literal (for arithmetic goals). -/
theorem LexState_curIndent_mk (d : List Char) (p ln : Nat) (m : Mode)
    (s : List Mode) (ci : Int) : (LexState.mk d p ln m s ci).curIndent = ci := rfl

theorem LexState_data_mk (d : List Char) (p ln : Nat) (m : Mode)
    (s : List Mode) (ci : Int) : (LexState.mk d p ln m s ci).data = d := rfl

theorem LexState_pos_mk (d : List Char) (p ln : Nat) (m : Mode)
    (s : List Mode) (ci : Int) : (LexState.mk d p ln m s ci).pos = p := rfl

theorem LexState_lineno_mk (d : List Char) (p ln : Nat) (m : Mode)
    (s : List Mode) (ci : Int) : (LexState.mk d p ln m s ci).lineno = ln := rfl

theorem LexState_mode_mk (d : List Char) (p ln : Nat) (m : Mode)
    (s : List Mode) (ci : Int) : (LexState.mk d p ln m s ci).mode = m := rfl

theorem LexState_stack_mk (d : List Char) (p ln : Nat) (m : Mode)
    (s : List Mode) (ci : Int) : (LexState.mk d p ln m s ci).stack = s := rfl

/-- A scan step's combined bookkeeping contract: the data is untouched, the
cursor advances, state-stack well-formedness, non-negativity of `cur_indent`
and the line-number invariant are preserved, and the emitted tokens' signed
indentation score accounts exactly for the change of `cur_indent`. -/
def StepOK (st : LexState) (t : Token) (ts : List Token) (st2 : LexState) : Prop :=
  st2.data = st.data ∧ st.pos < st2.pos ∧
  (WFST st → WFST st2) ∧
  (0 ≤ st.curIndent → 0 ≤ st2.curIndent) ∧
  4 * dentScore (t :: ts) = st2.curIndent - st.curIndent ∧
  (LinenoInv st → LinenoInv st2 ∧
    ∀ x ∈ t :: ts, x.lineno ≤ 1 + countNl (st.data.take x.lexpos))

/-! ### Matcher facts -/

theorem matchBOOLEAN_pos {p : Option Char} {rest : List Char} {n : Nat}
    (h : matchBOOLEAN p rest = some n) : 1 ≤ n := by
  simp only [matchBOOLEAN] at h
  repeat' split at h
  all_goals (first | (cases h <;> omega) | (injection h with h; omega))

theorem matchNULL_pos {p : Option Char} {rest : List Char} {n : Nat}
    (h : matchNULL p rest = some n) : 1 ≤ n := by
  simp only [matchNULL] at h
  repeat' split at h
  all_goals (first | (cases h <;> omega) | (injection h with h; omega))

theorem matchID_pos {rest : List Char} {n : Nat}
    (h : matchID rest = some n) : 1 ≤ n := by
  simp only [matchID] at h
  repeat' split at h
  all_goals (first | (cases h <;> omega) | (injection h with h; omega))

theorem matchPATH_pos {rest : List Char} {n : Nat}
    (h : matchPATH rest = some n) : 1 ≤ n := by
  simp only [matchPATH] at h
  repeat' split at h
  all_goals (first | (cases h <;> omega) | (injection h with h; omega))

theorem matchDOUBLE_COLON_pos {rest : List Char} {n : Nat}
    (h : matchDOUBLE_COLON rest = some n) : 1 ≤ n := by
  simp only [matchDOUBLE_COLON] at h
  repeat' split at h
  all_goals (first | (cases h <;> omega) | (injection h with h; omega))

theorem matchFLOATdec_pos {rest : List Char} {n : Nat}
    (h : matchFLOATdec rest = some n) : 1 ≤ n := by
  simp only [matchFLOATdec] at h
  repeat' split at h
  all_goals (first | (cases h <;> omega) | (injection h with h; omega))

theorem matchFLOATexp_pos {rest : List Char} {n : Nat}
    (h : matchFLOATexp rest = some n) : 1 ≤ n := by
  simp only [matchFLOATexp] at h
  repeat' split at h
  all_goals (first | (cases h <;> omega) | (injection h with h; omega))

theorem matchFLOAT_pos {rest : List Char} {n : Nat}
    (h : matchFLOAT rest = some n) : 1 ≤ n := by
  simp only [matchFLOAT] at h
  split at h
  next m heq => injection h with h; subst h; exact matchFLOATdec_pos heq
  next heq => exact matchFLOATexp_pos h

theorem matchINTEGER_pos {rest : List Char} {n : Nat}
    (h : matchINTEGER rest = some n) : 1 ≤ n := by
  simp only [matchINTEGER] at h
  repeat' split at h
  all_goals (first | (cases h <;> omega) | (injection h with h; omega))

theorem matchSTRING_pos {rest : List Char} {n : Nat}
    (h : matchSTRING rest = some n) : 1 ≤ n := by
  simp only [matchSTRING] at h
  split at h
  next => rcases Option.map_eq_some'.mp h with ⟨m, hm, he⟩; omega
  next => cases h

theorem matchComment_pos {rest : List Char} {n : Nat}
    (h : matchComment rest = some n) : 1 ≤ n := by
  simp only [matchComment] at h
  repeat' split at h
  all_goals (first | (cases h <;> omega) | (injection h with h; omega))

theorem matchNEWLINE_pos {rest : List Char} {n : Nat}
    (h : matchNEWLINE rest = some n) : 1 ≤ n := by
  simp only [matchNEWLINE] at h
  repeat' split at h
  all_goals (first | (cases h <;> omega) | (injection h with h; omega))

theorem matchLINE_pos {rest : List Char} {n : Nat}
    (h : matchLINE rest = some n) : 1 ≤ n := by
  simp only [matchLINE] at h
  repeat' split at h
  all_goals (first | (cases h <;> omega) | (injection h with h; omega))

/-! ### Counting and span helpers -/

theorem countNl_append (a b : List Char) : countNl (a ++ b) = countNl a + countNl b := by
  simp [countNl, List.countP_append]

theorem countNl_take_add (l : List Char) (m n : Nat) :
    countNl (l.take (m + n)) = countNl (l.take m) + countNl ((l.drop m).take n) := by
  rw [List.take_add, countNl_append]

theorem countNl_take_mono (l : List Char) {m n : Nat} (h : m ≤ n) :
    countNl (l.take m) ≤ countNl (l.take n) := by
  have : n = m + (n - m) := by omega
  rw [this, countNl_take_add]
  omega

theorem countTok_nil (ty : TokType) : countTok ty [] = 0 := rfl

theorem countTok_cons (ty : TokType) (t : Token) (ts : List Token) :
    countTok ty (t :: ts) = countTok ty ts + (if t.type = ty then 1 else 0) := by
  simp [countTok, List.countP_cons]

theorem countTok_append (ty : TokType) (a b : List Token) :
    countTok ty (a ++ b) = countTok ty a + countTok ty b := by
  simp [countTok, List.countP_append]

theorem countTok_replicate (ty : TokType) (k : Nat) (t : Token) :
    countTok ty (List.replicate k t) = if t.type = ty then k else 0 := by
  induction k with
  | zero => simp [countTok]
  | succ k ih =>
    rw [List.replicate_succ, countTok_cons, ih]
    split <;> omega

theorem dentScore_nil : dentScore [] = 0 := rfl

theorem dentScore_append (a b : List Token) :
    dentScore (a ++ b) = dentScore a + dentScore b := by
  simp [dentScore, countTok_append]
  omega

theorem dentScore_cons_replicate (t : Token) (k : Nat) (d : Token) :
    dentScore (t :: List.replicate k d) =
      dentScore [t] + dentScore (List.replicate k d) := by
  have : t :: List.replicate k d = [t] ++ List.replicate k d := rfl
  rw [this, dentScore_append]

theorem matchNEWLINE_countNl {rest : List Char} {n : Nat}
    (h : matchNEWLINE rest = some n) : 1 ≤ countNl (rest.take n) := by
  simp only [matchNEWLINE] at h
  split at h
  · cases h
  next hne =>
    injection h with h
    cases rest with
    | nil => simp at hne
    | cons c cs =>
      by_cases hc : c = '\n'
      · subst hc
        have hn : 1 ≤ n := by omega
        cases n with
        | zero => omega
        | succ m => simp [countNl, List.countP_cons, isNl]
      · rw [List.takeWhile_cons] at hne
        simp [isNl, hc] at hne

theorem matchLINE_take {rest : List Char} {n : Nat}
    (h : matchLINE rest = some n) :
    rest.take n = rest.takeWhile neNl ++ [ '\n' ] ∧
      countNl (rest.take n) = 1 := by
  induction rest generalizing n with
  | nil => simp [matchLINE] at h
  | cons c cs ih =>
    simp only [matchLINE] at h
    split at h
    · cases h
    next hne =>
      injection h with h
      subst h
      by_cases hc : c = '\n'
      · subst hc
        simp [List.takeWhile_cons, countNl, List.countP_cons, isNl, neNl]
      · have htw : (c :: cs).takeWhile neNl = c :: cs.takeWhile neNl := by
          simp [List.takeWhile_cons, neNl, hc]
        have hne2 : ¬((cs.takeWhile neNl).length = cs.length) := by
          rw [htw] at hne
          simp only [List.length_cons] at hne
          omega
        have hm : matchLINE cs = some ((cs.takeWhile neNl).length + 1) := by
          simp only [matchLINE]
          split
          next hx => exact absurd hx hne2
          next => rfl
        obtain ⟨ih1, ih2⟩ := ih hm
        rw [htw]
        constructor
        · show (c :: cs).take ((cs.takeWhile neNl).length + 1 + 1) = _
          rw [List.take_succ_cons, ih1]
          rfl
        · show countNl ((c :: cs).take ((cs.takeWhile neNl).length + 1 + 1)) = 1
          rw [List.take_succ_cons]
          simpa [countNl, List.countP_cons, isNl, hc] using ih2

/-! ### Integer facts for the indentation arithmetic -/

theorem emod4_cases {a : Int} (h : ¬(0 < a.emod 4)) :
    ∃ j : Int, a = 4 * j ∧ a.fdiv 4 = j := by
  have h0 : 0 ≤ a.emod 4 := Int.emod_nonneg a (by norm_num)
  have he : a.emod 4 = 0 := by omega
  have hd : (4 : Int) ∣ a := Int.dvd_of_emod_eq_zero he
  obtain ⟨j, hj⟩ := hd
  refine ⟨j, hj, ?_⟩
  rw [hj, Int.mul_fdiv_cancel_left _ (by norm_num)]

/-! ### Score values of concrete token shapes -/

theorem dentScore_one (ty : TokType) (v : TokValue) (ln lp : Nat) :
    dentScore [mkTok ty v ln lp] =
      (if ty = .INDENT then 1 else 0) + (if ty = .DOUBLE_COLON then 1 else 0)
        - (if ty = .DEDENT then 1 else 0) := by
  simp [dentScore, countTok, List.countP_cons, List.countP_nil, mkTok, beq_iff_eq]

theorem dentScore_replicate_INDENT (k : Nat) (v : TokValue) (ln lp : Nat) :
    dentScore (List.replicate k (mkTok .INDENT v ln lp)) = (k : Int) := by
  simp [dentScore, countTok_replicate, mkTok]

theorem dentScore_replicate_DEDENT (k : Nat) (v : TokValue) (ln lp : Nat) :
    dentScore (List.replicate k (mkTok .DEDENT v ln lp)) = -(k : Int) := by
  simp [dentScore, countTok_replicate, mkTok]

theorem dentScore_cons (t : Token) (ts : List Token) :
    dentScore (t :: ts) = dentScore [t] + dentScore ts := by
  simp only [dentScore, countTok_cons, countTok_nil]
  push_cast
  ring

/-! ### Rule-action facts -/

theorem actNEWLINE_elim {st : LexState} {n : Nat} {t : Token} {ts : List Token}
    {st2 : LexState} (h : actNEWLINE st n = .toks t ts st2) :
    t = mkTok .NEWLINE (.str (lexemeAt st n)) st.lineno st.pos ∧
    st2.data = st.data ∧ st2.pos = st.pos + n ∧
    st2.lineno = st.lineno + countNl (lexemeAt st n) ∧
    st2.mode = st.mode ∧ st2.stack = st.stack ∧
    4 * dentScore (t :: ts) = st2.curIndent - st.curIndent ∧
    (st2.curIndent = st.curIndent ∨ 0 ≤ st2.curIndent) ∧
    (∀ x ∈ ts, x.lineno = st.lineno + 1 ∧ x.lexpos = st.pos + n) := by
  simp only [actNEWLINE] at h
  split at h
  · injection h with h1 h2 h3
    subst h1; subst h2; subst h3
    refine ⟨rfl, rfl, rfl, rfl, rfl, rfl, ?_, Or.inl rfl, by simp⟩
    rw [dentScore_one]
    simp
  split at h
  · injection h with h1 h2 h3
    subst h1; subst h2; subst h3
    refine ⟨rfl, rfl, rfl, rfl, rfl, rfl, ?_, Or.inl rfl, by simp⟩
    rw [dentScore_one]
    simp
  split at h
  · cases h
  next hmod =>
    injection h with h1 h2 h3
    subst h1; subst h2; subst h3
    obtain ⟨j, hj, hdiv⟩ := emod4_cases hmod
    refine ⟨rfl, rfl, rfl, rfl, rfl, rfl, ?_, Or.inr (by positivity), ?_⟩
    · rw [dentScore_cons, hdiv]
      split
      next hpos =>
        rw [dentScore_replicate_INDENT, dentScore_one,
          if_neg (by decide : ¬(TokType.NEWLINE = TokType.INDENT)),
          if_neg (by decide : ¬(TokType.NEWLINE = TokType.DOUBLE_COLON)),
          if_neg (by decide : ¬(TokType.NEWLINE = TokType.DEDENT)),
          Int.natAbs_of_nonneg (le_of_lt hpos)]
        simp only [LexState_curIndent_mk]
        omega
      next hpos =>
        have hle : j ≤ 0 := by omega
        rw [dentScore_replicate_DEDENT, dentScore_one,
          if_neg (by decide : ¬(TokType.NEWLINE = TokType.INDENT)),
          if_neg (by decide : ¬(TokType.NEWLINE = TokType.DOUBLE_COLON)),
          if_neg (by decide : ¬(TokType.NEWLINE = TokType.DEDENT)),
          Int.ofNat_natAbs_of_nonpos hle]
        simp only [LexState_curIndent_mk]
        omega
    · intro x hx
      have := List.eq_of_mem_replicate hx
      subst this
      exact ⟨rfl, rfl⟩

theorem actNEWLINE_err {st : LexState} {n : Nat} {e : String}
    (h : actNEWLINE st n = .err e) : e = indentMsg := by
  simp only [actNEWLINE] at h
  repeat' split at h
  all_goals (first | (cases h <;> rfl) | (injection h with h; exact h.symm) | cases h)

theorem actLINE_elim {st : LexState} {n : Nat} {t : Token} {ts : List Token}
    {st2 : LexState} (h : actLINE st n = .toks t ts st2) :
    t = mkTok .LINE (.str (lexemeAt st n)) st.lineno st.pos ∧
    st2.data = st.data ∧ st2.pos = st.pos + n ∧
    st2.lineno = st.lineno + countNl (lexemeAt st n) ∧
    (WFST st → WFST st2) ∧
    4 * dentScore (t :: ts) = st2.curIndent - st.curIndent ∧
    (st2.curIndent = st.curIndent ∨ 0 ≤ st2.curIndent) ∧
    (∀ x ∈ ts, x.lineno = st.lineno + 1 ∧ x.lexpos = st.pos + n) := by
  simp only [actLINE] at h
  split at h
  · injection h with h1 h2 h3
    subst h1; subst h2; subst h3
    refine ⟨rfl, rfl, rfl, rfl, ?_, ?_, Or.inl rfl, by simp⟩
    · intro hw
      rcases hw with ⟨hm, hs⟩ | ⟨hm, hs⟩
      · exact Or.inl ⟨hm, hs⟩
      · exact Or.inr ⟨hm, hs⟩
    · rw [dentScore_one]
      simp
  split at h
  · injection h with h1 h2 h3
    subst h1; subst h2; subst h3
    refine ⟨rfl, rfl, rfl, rfl, ?_, ?_, Or.inl rfl, by simp⟩
    · intro hw
      rcases hw with ⟨hm, hs⟩ | ⟨hm, hs⟩
      · exact Or.inl ⟨hm, hs⟩
      · exact Or.inr ⟨hm, hs⟩
    · rw [dentScore_one]
      simp
  split at h
  · cases h
  next hmod =>
    split at h
    · injection h with h1 h2 h3
      subst h1; subst h2; subst h3
      refine ⟨rfl, rfl, rfl, rfl, ?_, ?_, Or.inl rfl, by simp⟩
      · intro hw
        rcases hw with ⟨hm, hs⟩ | ⟨hm, hs⟩
        · exact Or.inl ⟨hm, hs⟩
        · exact Or.inr ⟨hm, hs⟩
      · rw [dentScore_one]
        simp
    next hdneg =>
      split at h
      next m s hstk =>
        injection h with h1 h2 h3
        subst h1; subst h2; subst h3
        obtain ⟨j, hj, hdiv⟩ := emod4_cases hmod
        refine ⟨rfl, rfl, rfl, rfl, ?_, ?_, Or.inr (by positivity), ?_⟩
        · intro hw
          rcases hw with ⟨hm, hs⟩ | ⟨hm, hs⟩
          · rw [hs] at hstk
            cases hstk
          · rw [hs] at hstk
            injection hstk with hstk1 hstk2
            subst hstk1; subst hstk2
            exact Or.inl ⟨rfl, rfl⟩
        · rw [hdiv] at hdneg
          have hle : j ≤ 0 := by omega
          rw [dentScore_cons, hdiv, dentScore_replicate_DEDENT, dentScore_one,
            if_neg (by decide : ¬(TokType.LINE = TokType.INDENT)),
            if_neg (by decide : ¬(TokType.LINE = TokType.DOUBLE_COLON)),
            if_neg (by decide : ¬(TokType.LINE = TokType.DEDENT)),
            Int.ofNat_natAbs_of_nonpos hle]
          simp only [LexState_curIndent_mk]
          omega
        · intro x hx
          have := List.eq_of_mem_replicate hx
          subst this
          exact ⟨rfl, rfl⟩
      next => cases h

theorem actLINE_err {st : LexState} {n : Nat} {e : String}
    (h : actLINE st n = .err e) :
    e = indentMsg ∨ st.stack = [] := by
  simp only [actLINE] at h
  repeat' split at h
  all_goals (first
    | (cases h <;> first | exact Or.inl rfl | exact Or.inr (by assumption))
    | (injection h with h; exact Or.inl h.symm)
    | exact Or.inr (by assumption))

/-! ### StepOK lemmas for the rule actions -/

theorem WFST_congr {st st1 : LexState} (hm : st1.mode = st.mode)
    (hs : st1.stack = st.stack) (hw : WFST st) : WFST st1 := by
  rcases hw with ⟨h1, h2⟩ | ⟨h1, h2⟩
  · exact Or.inl ⟨by rw [hm, h1], by rw [hs, h2]⟩
  · exact Or.inr ⟨by rw [hm, h1], by rw [hs, h2]⟩

theorem StepOK_simple (st : LexState) (n : Nat) (hn : 1 ≤ n) (ty : TokType)
    (v : TokValue) (h1 : ty ≠ .INDENT) (h2 : ty ≠ .DOUBLE_COLON)
    (h3 : ty ≠ .DEDENT) :
    StepOK st (mkTok ty v st.lineno st.pos) [] {st with pos := st.pos + n} := by
  refine ⟨rfl, by simp only [LexState_pos_mk]; omega,
    fun hw => WFST_congr rfl rfl hw, fun hc => hc, ?_, fun hin => ⟨?_, ?_⟩⟩
  · rw [show (mkTok ty v st.lineno st.pos :: ([] : List Token))
        = [mkTok ty v st.lineno st.pos] from rfl,
      dentScore_one, if_neg h1, if_neg h2, if_neg h3]
    simp only [LexState_curIndent_mk]
    omega
  · unfold LinenoInv at hin ⊢
    simp only [LexState_lineno_mk, LexState_data_mk, LexState_pos_mk]
    have := countNl_take_mono st.data (show st.pos ≤ st.pos + n by omega)
    omega
  · intro x hx
    rcases List.mem_cons.mp hx with h | h
    · subst h
      exact hin
    · cases h

theorem StepOK_DC (st : LexState) (n : Nat) (hn : 1 ≤ n)
    (hmode : st.mode = .INITIAL) (v : TokValue) :
    StepOK st (mkTok .DOUBLE_COLON v st.lineno st.pos) []
      {st with pos := st.pos + n, mode := .freetext,
               stack := st.mode :: st.stack, curIndent := st.curIndent + 4} := by
  refine ⟨rfl, by simp only [LexState_pos_mk]; omega, fun hw => ?_,
    fun hc => by simp only [LexState_curIndent_mk]; omega, ?_, fun hin => ⟨?_, ?_⟩⟩
  · rcases hw with ⟨h1, h2⟩ | ⟨h1, h2⟩
    · exact Or.inr ⟨rfl, by simp [h1, h2, hmode]⟩
    · rw [hmode] at h1
      cases h1
  · rw [show (mkTok .DOUBLE_COLON v st.lineno st.pos :: ([] : List Token))
        = [mkTok .DOUBLE_COLON v st.lineno st.pos] from rfl,
      dentScore_one, if_neg (by decide : ¬(TokType.DOUBLE_COLON = TokType.INDENT)),
      if_pos rfl, if_neg (by decide : ¬(TokType.DOUBLE_COLON = TokType.DEDENT))]
    simp only [LexState_curIndent_mk]
    omega
  · unfold LinenoInv at hin ⊢
    simp only [LexState_lineno_mk, LexState_data_mk, LexState_pos_mk]
    have := countNl_take_mono st.data (show st.pos ≤ st.pos + n by omega)
    omega
  · intro x hx
    rcases List.mem_cons.mp hx with h | h
    · subst h
      exact hin
    · cases h

theorem StepOK_of_actNEWLINE {st : LexState} {n : Nat} {t : Token}
    {ts : List Token} {st2 : LexState} (hn : 1 ≤ n)
    (hcnt : ts ≠ [] → 1 ≤ countNl (lexemeAt st n))
    (h : actNEWLINE st n = .toks t ts st2) : StepOK st t ts st2 := by
  obtain ⟨ht, hdata, hpos, hln, hmode, hstk, hscore, hnn, hmem⟩ := actNEWLINE_elim h
  have htake : countNl (st.data.take (st.pos + n))
      = countNl (st.data.take st.pos) + countNl (lexemeAt st n) := by
    rw [countNl_take_add]
    rfl
  refine ⟨hdata, by omega, fun hw => WFST_congr hmode hstk hw, fun hc => ?_, hscore,
    fun hin => ⟨?_, ?_⟩⟩
  · rcases hnn with he | he
    · omega
    · exact he
  · unfold LinenoInv at hin ⊢
    rw [hdata, hpos, hln, htake]
    omega
  · intro x hx
    rcases List.mem_cons.mp hx with hh | hh
    · subst hh
      rw [ht]
      exact hin
    · obtain ⟨hxl, hxp⟩ := hmem x hh
      have h1 := hcnt (by intro he; rw [he] at hh; cases hh)
      unfold LinenoInv at hin
      rw [hxl, hxp, htake]
      omega

theorem StepOK_of_actLINE {st : LexState} {n : Nat} {t : Token}
    {ts : List Token} {st2 : LexState} (hn : 1 ≤ n)
    (hcnt : ts ≠ [] → 1 ≤ countNl (lexemeAt st n))
    (h : actLINE st n = .toks t ts st2) : StepOK st t ts st2 := by
  obtain ⟨ht, hdata, hpos, hln, hwf, hscore, hnn, hmem⟩ := actLINE_elim h
  have htake : countNl (st.data.take (st.pos + n))
      = countNl (st.data.take st.pos) + countNl (lexemeAt st n) := by
    rw [countNl_take_add]
    rfl
  refine ⟨hdata, by omega, hwf, fun hc => ?_, hscore, fun hin => ⟨?_, ?_⟩⟩
  · rcases hnn with he | he
    · omega
    · exact he
  · unfold LinenoInv at hin ⊢
    rw [hdata, hpos, hln, htake]
    omega
  · intro x hx
    rcases List.mem_cons.mp hx with hh | hh
    · subst hh
      rw [ht]
      exact hin
    · obtain ⟨hxl, hxp⟩ := hmem x hh
      have h1 := hcnt (by intro he; rw [he] at hh; cases hh)
      unfold LinenoInv at hin
      rw [hxl, hxp, htake]
      omega

/-! ### StepOK for the rule dispatch -/

theorem actID_ty_ne (v : List Char) :
    (if KEYWORDS.contains v then (RESERVED v).getD TokType.KEYWORD
      else TokType.ID) ≠ TokType.INDENT ∧
    (if KEYWORDS.contains v then (RESERVED v).getD TokType.KEYWORD
      else TokType.ID) ≠ TokType.DOUBLE_COLON ∧
    (if KEYWORDS.contains v then (RESERVED v).getD TokType.KEYWORD
      else TokType.ID) ≠ TokType.DEDENT := by
  refine ⟨?_, ?_, ?_⟩ <;>
  · split
    · unfold RESERVED
      repeat' split
      all_goals decide
    · decide

theorem normalHit_toks {st : LexState} {rest : List Char} {t : Token}
    {ts : List Token} {st2 : LexState} (hmode : st.mode = .INITIAL)
    (hrest : rest = st.data.drop st.pos)
    (h : normalHit st rest = .res (.toks t ts st2)) : StepOK st t ts st2 := by
  simp only [normalHit] at h
  split at h
  next n heq =>
    injection h with h
    simp only [actBOOLEAN] at h
    injection h with h1 h2 h3
    subst h1; subst h2; subst h3
    exact StepOK_simple st n (matchBOOLEAN_pos heq) _ _
      (by decide) (by decide) (by decide)
  next =>
  split at h
  next n heq =>
    injection h with h
    simp only [actNULL] at h
    injection h with h1 h2 h3
    subst h1; subst h2; subst h3
    exact StepOK_simple st n (matchNULL_pos heq) _ _
      (by decide) (by decide) (by decide)
  next =>
  split at h
  next n heq =>
    injection h with h
    simp only [actID] at h
    injection h with h1 h2 h3
    subst h1; subst h2; subst h3
    exact StepOK_simple st n (matchID_pos heq) _ _
      (actID_ty_ne _).1 (actID_ty_ne _).2.1 (actID_ty_ne _).2.2
  next =>
  split at h
  next n heq =>
    injection h with h
    simp only [actPATH] at h
    injection h with h1 h2 h3
    subst h1; subst h2; subst h3
    exact StepOK_simple st n (matchPATH_pos heq) _ _
      (by decide) (by decide) (by decide)
  next =>
  split at h
  next n heq =>
    injection h with h
    simp only [actDOUBLE_COLON] at h
    injection h with h1 h2 h3
    subst h1; subst h2; subst h3
    exact StepOK_DC st n (matchDOUBLE_COLON_pos heq) hmode _
  next =>
  split at h
  next n heq =>
    injection h with h
    simp only [actFLOAT] at h
    injection h with h1 h2 h3
    subst h1; subst h2; subst h3
    exact StepOK_simple st n (matchFLOAT_pos heq) _ _
      (by decide) (by decide) (by decide)
  next =>
  split at h
  next n heq =>
    injection h with h
    simp only [actINTEGER] at h
    injection h with h1 h2 h3
    subst h1; subst h2; subst h3
    exact StepOK_simple st n (matchINTEGER_pos heq) _ _
      (by decide) (by decide) (by decide)
  next =>
  split at h
  next n heq =>
    injection h with h
    simp only [actSTRING] at h
    injection h with h1 h2 h3
    subst h1; subst h2; subst h3
    exact StepOK_simple st n (matchSTRING_pos heq) _ _
      (by decide) (by decide) (by decide)
  next =>
  split at h
  next n heq => cases h
  next =>
  split at h
  next n heq =>
    injection h with h
    have hlex : lexemeAt st n = rest.take n := by
      rw [hrest]
      rfl
    refine StepOK_of_actNEWLINE (matchNEWLINE_pos heq) (fun _ => ?_) h
    rw [hlex]
    exact matchNEWLINE_countNl heq
  next =>
  split at h
  <;> first
    | (injection h with h
       simp only [actPunct] at h
       injection h with h1 h2 h3
       subst h1; subst h2; subst h3
       exact StepOK_simple st 1 le_rfl _ _ (by decide) (by decide) (by decide))
    | cases h

theorem freetextHit_toks {st : LexState} {rest : List Char} {t : Token}
    {ts : List Token} {st2 : LexState} (hrest : rest = st.data.drop st.pos)
    (h : freetextHit st rest = .res (.toks t ts st2)) : StepOK st t ts st2 := by
  simp only [freetextHit] at h
  split at h
  next n heq =>
    injection h with h
    have hlex : lexemeAt st n = rest.take n := by
      rw [hrest]
      rfl
    refine StepOK_of_actLINE (matchLINE_pos heq) (fun _ => ?_) h
    rw [hlex, (matchLINE_take heq).2]
  next => cases h

theorem normalHit_cont {st : LexState} {rest : List Char} {st1 : LexState}
    (h : normalHit st rest = .cont st1) :
    ∃ n, matchComment rest = some n ∧ st1 = actComment st n := by
  simp only [normalHit] at h
  repeat' split at h
  all_goals (first
    | (injection h with h; exact ⟨_, by assumption, h.symm⟩)
    | (injection h)
    | (cases h))

theorem freetextHit_ne_cont {st : LexState} {rest : List Char} {st1 : LexState}
    (h : freetextHit st rest = .cont st1) : False := by
  simp only [freetextHit] at h
  repeat' split at h
  all_goals cases h

theorem normalHit_res_err {st : LexState} {rest : List Char} {e : String}
    (h : normalHit st rest = .res (.err e)) : e = indentMsg := by
  simp only [normalHit] at h
  repeat' split at h
  all_goals (first
    | (cases h)
    | (injection h with h; exact actNEWLINE_err h)
    | (injection h with h; simp only [actBOOLEAN, actNULL, actID, actPATH,
        actDOUBLE_COLON, actFLOAT, actINTEGER, actSTRING, actPunct] at h))

theorem freetextHit_res_err {st : LexState} {rest : List Char} {e : String}
    (hstk : st.stack ≠ []) (h : freetextHit st rest = .res (.err e)) :
    e = indentMsg := by
  simp only [freetextHit] at h
  split at h
  next n heq =>
    injection h with h
    rcases actLINE_err h with he | he
    · exact he
    · exact absurd he hstk
  next => cases h

theorem normalHit_res_not_eof_nofuel {st : LexState} {rest : List Char}
    {r : LexRes} (h : normalHit st rest = .res r) :
    (∃ t ts st2, r = .toks t ts st2) ∨ (∃ e, r = .err e) := by
  simp only [normalHit] at h
  repeat' split at h
  all_goals (first
    | (injection h with h
       subst h
       first
         | exact Or.inl ⟨_, _, _, rfl⟩
         | (simp only [actBOOLEAN, actNULL, actID, actPATH, actDOUBLE_COLON,
              actFLOAT, actINTEGER, actSTRING, actPunct, actNEWLINE, actLINE]
            repeat' split
            all_goals (first | exact Or.inl ⟨_, _, _, rfl⟩ | exact Or.inr ⟨_, rfl⟩)))
    | (injection h)
    | (cases h))

theorem freetextHit_res_not_eof_nofuel {st : LexState} {rest : List Char}
    {r : LexRes} (h : freetextHit st rest = .res r) :
    (∃ t ts st2, r = .toks t ts st2) ∨ (∃ e, r = .err e) := by
  simp only [freetextHit] at h
  split at h
  next n heq =>
    injection h with h
    subst h
    simp only [actLINE]
    repeat' split
    all_goals (first | exact Or.inl ⟨_, _, _, rfl⟩ | exact Or.inr ⟨_, rfl⟩)
  next => cases h

/-! ### lexToken-level invariants -/

theorem actComment_spec (st : LexState) (n : Nat) :
    (actComment st n).data = st.data ∧ (actComment st n).pos = st.pos + n ∧
    (actComment st n).mode = st.mode ∧ (actComment st n).stack = st.stack ∧
    (actComment st n).curIndent = st.curIndent ∧
    (LinenoInv st → LinenoInv (actComment st n)) := by
  refine ⟨rfl, rfl, rfl, rfl, rfl, fun hin => ?_⟩
  unfold LinenoInv at hin ⊢
  show st.lineno + countNl (lexemeAt st n) ≤ 1 + countNl (st.data.take (st.pos + n))
  have htake : countNl (st.data.take (st.pos + n))
      = countNl (st.data.take st.pos) + countNl (lexemeAt st n) := by
    rw [countNl_take_add]
    rfl
  omega

theorem StepOK_shift {st st1 st2 : LexState} {t : Token} {ts : List Token}
    (hstep : StepOK st1 t ts st2)
    (hd : st1.data = st.data) (hp : st.pos ≤ st1.pos)
    (hm : st1.mode = st.mode) (hs : st1.stack = st.stack)
    (hc : st1.curIndent = st.curIndent)
    (hl : LinenoInv st → LinenoInv st1) : StepOK st t ts st2 := by
  obtain ⟨s1, s2, s3, s4, s5, s6⟩ := hstep
  refine ⟨by rw [s1, hd], by omega, fun hw => s3 (WFST_congr hm hs hw),
    fun h0 => s4 (by rw [hc]; exact h0), by rw [s5, hc], fun hin => ?_⟩
  obtain ⟨i1, i2⟩ := s6 (hl hin)
  refine ⟨i1, ?_⟩
  rw [hd] at i2
  exact i2

theorem posSkipInv {st : LexState} (k : Nat) (hin : LinenoInv st) :
    LinenoInv {st with pos := st.pos + k} := by
  unfold LinenoInv at hin ⊢
  simp only [LexState_lineno_mk, LexState_data_mk, LexState_pos_mk]
  have := countNl_take_mono st.data (show st.pos ≤ st.pos + k by omega)
  omega

theorem lexToken_toks_spec : ∀ (fuel : Nat) {st : LexState} {t : Token}
    {ts : List Token} {st2 : LexState},
    lexToken fuel st = .toks t ts st2 → StepOK st t ts st2 := by
  intro fuel
  induction fuel with
  | zero => intro st t ts st2 h; cases h
  | succ f ih =>
    intro st t ts st2 h
    rw [lexToken] at h
    split at h
    next heq => cases h
    next c cs heq =>
      split at h
      next hsp =>
        have hx := ih h
        exact StepOK_shift hx rfl (by simp only [LexState_pos_mk]; omega) rfl rfl rfl
          (posSkipInv 1)
      next hsp =>
        split at h
        next r hhit =>
          subst h
          cases hmode : st.mode with
          | INITIAL =>
            simp only [stateHit, hmode] at hhit
            exact normalHit_toks hmode heq.symm hhit
          | freetext =>
            simp only [stateHit, hmode] at hhit
            exact freetextHit_toks heq.symm hhit
        next st1 hhit =>
          cases hmode : st.mode with
          | INITIAL =>
            simp only [stateHit, hmode] at hhit
            obtain ⟨n, hcm, hst1⟩ := normalHit_cont hhit
            subst hst1
            have hx := ih h
            obtain ⟨a1, a2, a3, a4, a5, a6⟩ := actComment_spec st n
            exact StepOK_shift hx a1 (by omega) a3 a4 a5 a6
          | freetext =>
            simp only [stateHit, hmode] at hhit
            exact absurd hhit (fun hx => freetextHit_ne_cont hx)
        next hhit =>
          have hx := ih h
          exact StepOK_shift hx rfl (by simp only [LexState_pos_mk]; omega) rfl rfl rfl
            (posSkipInv 1)

theorem lexToken_eof_spec : ∀ (fuel : Nat) {st st2 : LexState},
    lexToken fuel st = .eof st2 →
    st2.data = st.data ∧ st2.mode = st.mode ∧ st2.stack = st.stack ∧
    st2.curIndent = st.curIndent ∧ (LinenoInv st → LinenoInv st2) ∧
    st2.data.length ≤ st2.pos := by
  intro fuel
  induction fuel with
  | zero => intro st st2 h; cases h
  | succ f ih =>
    intro st st2 h
    rw [lexToken] at h
    split at h
    next heq =>
      injection h with h
      subst h
      have hlen : st.data.length ≤ st.pos := by
        by_contra hgt
        have : st.data.drop st.pos ≠ [] := by
          intro hx
          rw [List.drop_eq_nil_iff_le] at hx
          omega
        exact this heq
      refine ⟨rfl, rfl, rfl, rfl, posSkipInv 1, ?_⟩
      simp only [LexState_data_mk, LexState_pos_mk]
      omega
    next c cs heq =>
      split at h
      next hsp =>
        have hx := ih h
        obtain ⟨a1, a2, a3, a4, a5, a6⟩ := hx
        exact ⟨a1, a2, a3, a4, fun hin => a5 (posSkipInv 1 hin), a6⟩
      next hsp =>
        split at h
        next r hhit =>
          subst h
          cases hmode : st.mode with
          | INITIAL =>
            simp only [stateHit, hmode] at hhit
            rcases normalHit_res_not_eof_nofuel hhit with ⟨t, ts, sx, hx⟩ | ⟨e, hx⟩ <;> cases hx
          | freetext =>
            simp only [stateHit, hmode] at hhit
            rcases freetextHit_res_not_eof_nofuel hhit with ⟨t, ts, sx, hx⟩ | ⟨e, hx⟩ <;> cases hx
        next st1 hhit =>
          cases hmode : st.mode with
          | INITIAL =>
            simp only [stateHit, hmode] at hhit
            obtain ⟨n, hcm, hst1⟩ := normalHit_cont hhit
            subst hst1
            obtain ⟨a1, a2, a3, a4, a5, a6⟩ := actComment_spec st n
            obtain ⟨b1, b2, b3, b4, b5, b6⟩ := ih h
            exact ⟨by rw [b1, a1], by rw [b2, a3]; exact hmode, by rw [b3, a4],
              by rw [b4, a5], fun hin => b5 (a6 hin), b6⟩
          | freetext =>
            simp only [stateHit, hmode] at hhit
            exact absurd hhit (fun hx => freetextHit_ne_cont hx)
        next hhit =>
          have hx := ih h
          obtain ⟨a1, a2, a3, a4, a5, a6⟩ := hx
          exact ⟨a1, a2, a3, a4, fun hin => a5 (posSkipInv 1 hin), a6⟩

theorem lexToken_err_spec : ∀ (fuel : Nat) {st : LexState} {e : String},
    lexToken fuel st = .err e → WFST st → e = indentMsg := by
  intro fuel
  induction fuel with
  | zero => intro st e h; cases h
  | succ f ih =>
    intro st e h hw
    rw [lexToken] at h
    split at h
    next heq => cases h
    next c cs heq =>
      split at h
      next hsp => exact ih h (WFST_congr rfl rfl hw)
      next hsp =>
        split at h
        next r hhit =>
          subst h
          cases hmode : st.mode with
          | INITIAL =>
            simp only [stateHit, hmode] at hhit
            exact normalHit_res_err hhit
          | freetext =>
            simp only [stateHit, hmode] at hhit
            have hstk : st.stack ≠ [] := by
              rcases hw with ⟨h1, h2⟩ | ⟨h1, h2⟩
              · rw [hmode] at h1
                cases h1
              · rw [h2]
                intro hx
                cases hx
            exact freetextHit_res_err hstk hhit
        next st1 hhit =>
          cases hmode : st.mode with
          | INITIAL =>
            simp only [stateHit, hmode] at hhit
            obtain ⟨n, hcm, hst1⟩ := normalHit_cont hhit
            subst hst1
            exact ih h (WFST_congr rfl rfl hw)
          | freetext =>
            simp only [stateHit, hmode] at hhit
            exact absurd hhit (fun hx => freetextHit_ne_cont hx)
        next hhit => exact ih h (WFST_congr rfl rfl hw)

theorem lexToken_ne_nofuel : ∀ (fuel : Nat) {st : LexState},
    st.data.length - st.pos < fuel → lexToken fuel st ≠ .nofuel := by
  intro fuel
  induction fuel with
  | zero => intro st h; omega
  | succ f ih =>
    intro st hlt h
    rw [lexToken] at h
    split at h
    next heq => cases h
    next c cs heq =>
      have hpos : st.pos < st.data.length := by
        by_contra hge
        rw [List.drop_eq_nil_of_le (by omega)] at heq
        cases heq
      split at h
      next hsp =>
        refine ih ?_ h
        simp only [LexState_pos_mk, LexState_data_mk]
        omega
      next hsp =>
        split at h
        next r hhit =>
          subst h
          cases hmode : st.mode with
          | INITIAL =>
            simp only [stateHit, hmode] at hhit
            rcases normalHit_res_not_eof_nofuel hhit with ⟨t, ts, sx, hx⟩ | ⟨e, hx⟩ <;> cases hx
          | freetext =>
            simp only [stateHit, hmode] at hhit
            rcases freetextHit_res_not_eof_nofuel hhit with ⟨t, ts, sx, hx⟩ | ⟨e, hx⟩ <;> cases hx
        next st1 hhit =>
          cases hmode : st.mode with
          | INITIAL =>
            simp only [stateHit, hmode] at hhit
            obtain ⟨n, hcm, hst1⟩ := normalHit_cont hhit
            have hn := matchComment_pos hcm
            subst hst1
            refine ih ?_ h
            obtain ⟨a1, a2, a3, a4, a5, a6⟩ := actComment_spec st n
            rw [a1, a2]
            omega
          | freetext =>
            simp only [stateHit, hmode] at hhit
            exact absurd hhit (fun hx => freetextHit_ne_cont hx)
        next hhit =>
          refine ih ?_ h
          simp only [LexState_pos_mk, LexState_data_mk]
          omega

/-! ### Collected-scan invariants -/

theorem flatToks_cons (t : Token) (ts : List Token)
    (L : List (Token × List Token)) :
    flatToks ((t, ts) :: L) = (t :: ts) ++ flatToks L := rfl

theorem rawScanAll_ended_spec : ∀ (f : Nat) {st : LexState}
    {L : List (Token × List Token)} {st2 : LexState},
    rawScanAll f st = (L, .ended st2) →
    st2.data = st.data ∧
    (WFST st → WFST st2) ∧
    4 * dentScore (flatToks L) = st2.curIndent - st.curIndent ∧
    (0 ≤ st.curIndent → 0 ≤ st2.curIndent) ∧
    (LinenoInv st →
      (∀ x ∈ flatToks L, x.lineno ≤ 1 + countNl (st.data.take x.lexpos)) ∧
        LinenoInv st2) ∧
    st2.data.length ≤ st2.pos := by
  intro f
  induction f with
  | zero =>
    intro st L st2 h
    rw [rawScanAll] at h
    injection h with h1 h2
    cases h2
  | succ f ih =>
    intro st L st2 h
    rw [rawScanAll] at h
    split at h
    next t ts st3 hlex =>
      rcases hrs : rawScanAll f st3 with ⟨L2, e2⟩
      rw [hrs] at h
      injection h with h1 h2
      subst h1
      subst h2
      obtain ⟨s1, s2, s3, s4, s5, s6⟩ := lexToken_toks_spec _ hlex
      obtain ⟨b1, b2, b3, b4, b5, b6⟩ := ih hrs
      have hflat : flatToks ((t, ts) :: L2) = (t :: ts) ++ flatToks L2 := rfl
      refine ⟨by rw [b1, s1], fun hw => b2 (s3 hw), ?_, fun hc => b4 (s4 hc),
        fun hin => ?_, b6⟩
      · rw [hflat, dentScore_append]
        omega
      · obtain ⟨i1, i2⟩ := s6 hin
        obtain ⟨j1, j2⟩ := b5 i1
        refine ⟨?_, j2⟩
        intro x hx
        rw [hflat] at hx
        rcases List.mem_append.mp hx with hx | hx
        · exact i2 x hx
        · have := j1 x hx
          rw [s1] at this
          exact this
    next st3 hlex =>
      injection h with h1 h2
      subst h1
      injection h2 with h2
      subst h2
      obtain ⟨a1, a2, a3, a4, a5, a6⟩ := lexToken_eof_spec _ hlex
      exact ⟨a1, fun hw => WFST_congr a2 a3 hw,
        by rw [show flatToks [] = [] from rfl, dentScore_nil, a4]; omega,
        fun hc => by rw [a4]; exact hc,
        fun hin => ⟨fun x hx => absurd hx (List.not_mem_nil x), a5 hin⟩, a6⟩
    next e hlex =>
      injection h with h1 h2
      cases h2
    next hlex =>
      injection h with h1 h2
      cases h2

theorem rawScanAll_failed_msg : ∀ (f : Nat) {st : LexState}
    {L : List (Token × List Token)} {e : String},
    rawScanAll f st = (L, .failed e) → WFST st → e = indentMsg := by
  intro f
  induction f with
  | zero =>
    intro st L e h
    rw [rawScanAll] at h
    injection h with h1 h2
    cases h2
  | succ f ih =>
    intro st L e h hw
    rw [rawScanAll] at h
    split at h
    next t ts st3 hlex =>
      rcases hrs : rawScanAll f st3 with ⟨L2, e2⟩
      rw [hrs] at h
      injection h with h1 h2
      subst h1
      subst h2
      obtain ⟨s1, s2, s3, s4, s5, s6⟩ := lexToken_toks_spec _ hlex
      exact ih hrs (s3 hw)
    next st3 hlex =>
      injection h with h1 h2
      cases h2
    next e2 hlex =>
      injection h with h1 h2
      injection h2 with h2
      subst h2
      exact lexToken_err_spec _ hlex hw
    next hlex =>
      injection h with h1 h2
      cases h2

theorem lexToken_toks_pos_lt : ∀ (fuel : Nat) {st : LexState} {t : Token}
    {ts : List Token} {st2 : LexState},
    lexToken fuel st = .toks t ts st2 → st.pos < st.data.length := by
  intro fuel
  induction fuel with
  | zero => intro st t ts st2 h; cases h
  | succ f ih =>
    intro st t ts st2 h
    rw [lexToken] at h
    split at h
    next heq => cases h
    next c cs heq =>
      by_contra hge
      rw [List.drop_eq_nil_of_le (by omega)] at heq
      cases heq

theorem rawScanAll_not_gas : ∀ (f : Nat) {st : LexState},
    st.data.length + 1 - st.pos < f → (rawScanAll f st).2 ≠ .gas := by
  intro f
  induction f with
  | zero => intro st h; omega
  | succ f ih =>
    intro st hlt
    rw [rawScanAll]
    split
    next t ts st3 hlex =>
      obtain ⟨s1, s2, s3, s4, s5, s6⟩ := lexToken_toks_spec _ hlex
      have hplt := lexToken_toks_pos_lt _ hlex
      show (rawScanAll f st3).2 ≠ ScanEnd.gas
      refine ih ?_
      rw [s1]
      omega
    next st3 hlex => simp
    next e hlex => simp
    next hlex =>
      exact absurd hlex (lexToken_ne_nofuel _ (by omega))

theorem collect_not_gas (data : List Char) : (collect data).2 ≠ .gas := by
  unfold collect
  refine rawScanAll_not_gas _ ?_
  simp only [initLex, LexState_pos_mk, LexState_data_mk]
  omega

/-! ### Bridge: the queue driver delivers the collected scan -/

theorem totalToks_cons (t : Token) (ts : List Token)
    (L : List (Token × List Token)) :
    totalToks ((t, ts) :: L) = ts.length + 1 + totalToks L := rfl

theorem lastOr_cons (t : Token) (l : List Token) (d : Option Token) :
    lastOr (t :: l) d = lastOr l (some t) := by
  cases l with
  | nil => rfl
  | cons x xs =>
    simp only [lastOr, List.getLast?_cons_cons]
    cases hgl : (x :: xs).getLast? with
    | none => simp at hgl
    | some y => rfl

theorem rawScanAll_exhausted (st : LexState) (hlen : st.data.length ≤ st.pos) :
    rawScanAll 1 st = ([], .ended {st with pos := st.pos + 1}) := by
  rw [rawScanAll, lexToken, List.drop_eq_nil_of_le hlen]

theorem closingToks_zero (st : LexState) (lt : Option Token)
    (h : ¬(0 < st.curIndent)) : closingToks st lt = [] := by
  unfold closingToks
  rw [if_neg h]

theorem runTokens_ended : ∀ (fuel : Nat) (q : List Token) (lt : Option Token)
    (st : LexState) (L : List (Token × List Token)) (st2 : LexState) (f : Nat),
    rawScanAll f st = (L, .ended st2) →
    (0 < st2.curIndent → 0 < (st2.curIndent.fdiv 4).toNat) →
    q.length + totalToks L +
      (if 0 < st2.curIndent then (st2.curIndent.fdiv 4).toNat + 1 else 0) + 1 ≤ fuel →
    runTokens fuel ⟨st, q, lt⟩ =
      .ok (q ++ flatToks L ++ closingToks st2 (lastOr (q ++ flatToks L) lt)) := by
  intro fuel
  induction fuel with
  | zero =>
    intro q lt st L st2 f hrs hdvd hle
    omega
  | succ fuel ih =>
    intro q lt st L st2 f hrs hdvd hle
    cases q with
    | cons t q3 =>
      have hx := ih q3 (some t) st L st2 f hrs hdvd
        (by simp only [List.length_cons] at hle; omega)
      have htok : BabelLexer.token ⟨st, t :: q3, lt⟩ =
          .ok (some t, ⟨st, q3, some t⟩) := rfl
      rw [runTokens, htok]
      simp only [hx]
      rw [List.cons_append, lastOr_cons]
      simp [List.append_assoc]
    | nil =>
      cases f with
      | zero =>
        rw [rawScanAll] at hrs
        injection hrs with h1 h2
        cases h2
      | succ f2 =>
        rw [rawScanAll] at hrs
        split at hrs
        next t ts st3 hlex =>
          rcases hrs2 : rawScanAll f2 st3 with ⟨L2, e2⟩
          simp only [hrs2] at hrs
          injection hrs with h1 h2
          subst h1
          subst h2
          have hx := ih ts (some t) st3 L2 st2 f2 hrs2 hdvd
            (by rw [totalToks_cons] at hle; simp only [List.length_nil] at hle; omega)
          have htok : BabelLexer.token ⟨st, [], lt⟩ =
              .ok (some t, ⟨st3, ts, some t⟩) := by
            simp only [BabelLexer.token, hlex]
          rw [runTokens, htok]
          simp only [hx]
          rw [flatToks_cons]
          rw [show (([] : List Token) ++ ((t :: ts) ++ flatToks L2))
              = t :: (ts ++ flatToks L2) from by simp]
          rw [lastOr_cons]
          simp [List.append_assoc]
        next st3 hlex =>
          injection hrs with h1 h2
          subst h1
          injection h2 with h2
          subst h2
          obtain ⟨e1, e2, e3, e4, e5, hlen⟩ := lexToken_eof_spec _ hlex
          by_cases hpos : 0 < st3.curIndent
          · have hk : 0 < (st3.curIndent.fdiv 4).toNat := hdvd hpos
            have hraw1 : rawScanAll 1 {st3 with curIndent := 0}
                = ([], .ended {st3 with curIndent := 0, pos := st3.pos + 1}) :=
              rawScanAll_exhausted _ hlen
            have hdvd0 : 0 < ({st3 with curIndent := 0, pos := st3.pos + 1} : LexState).curIndent → 0 < ((({st3 with curIndent := 0, pos := st3.pos + 1} : LexState).curIndent).fdiv 4).toNat := by
              intro hx
              simp only [LexState_curIndent_mk] at hx
              omega
            have hcl0 : ∀ d, closingToks {st3 with curIndent := 0, pos := st3.pos + 1} d = [] := by
              intro d
              refine closingToks_zero _ _ ?_
              simp only [LexState_curIndent_mk]
              omega
            cases hk0 : (st3.curIndent.fdiv 4).toNat with
            | zero => omega
            | succ k0 =>
              have hcl : closingToks st3 lt =
                  (match lt with
                   | some t =>
                     if t.type = .NEWLINE ∨ t.type = .LINE then []
                     else [mkTok .NEWLINE (.str [ '\n' ]) st3.lineno st3.pos]
                   | none => []) ++
                  List.replicate (k0 + 1)
                    (mkTok .DEDENT (.str [ '\t' ]) st3.lineno st3.pos) := by
                unfold closingToks
                rw [if_pos hpos, hk0]
              have hccost : (if (0 : Int) < ({st3 with curIndent := 0, pos := st3.pos + 1} : LexState).curIndent then ((({st3 with curIndent := 0, pos := st3.pos + 1} : LexState).curIndent).fdiv 4).toNat + 1 else 0) = 0 := by
                rw [if_neg]
                simp only [LexState_curIndent_mk]
                omega
              have hle2 := hle
              rw [if_pos hpos, hk0] at hle2
              simp only [List.length_nil] at hle2
              have hbound : (List.replicate k0 (mkTok .DEDENT (.str [ '\t' ]) st3.lineno st3.pos)).length + totalToks [] + (if (0 : Int) < ({st3 with curIndent := 0, pos := st3.pos + 1} : LexState).curIndent then ((({st3 with curIndent := 0, pos := st3.pos + 1} : LexState).curIndent).fdiv 4).toNat + 1 else 0) + 1 ≤ fuel := by
                have h1 : (List.replicate k0 (mkTok .DEDENT (.str [ '\t' ]) st3.lineno st3.pos)).length = k0 := by simp
                have h3 : totalToks ([] : List (Token × List Token)) = 0 := rfl
                rw [h1, h3, hccost]
                omega
              have hbound2 : (List.replicate (k0 + 1) (mkTok .DEDENT (.str [ '\t' ]) st3.lineno st3.pos)).length + totalToks [] + (if (0 : Int) < ({st3 with curIndent := 0, pos := st3.pos + 1} : LexState).curIndent then ((({st3 with curIndent := 0, pos := st3.pos + 1} : LexState).curIndent).fdiv 4).toNat + 1 else 0) + 1 ≤ fuel := by
                have h1 : (List.replicate (k0 + 1) (mkTok .DEDENT (.str [ '\t' ]) st3.lineno st3.pos)).length = k0 + 1 := by simp
                have h3 : totalToks ([] : List (Token × List Token)) = 0 := rfl
                rw [h1, h3, hccost]
                omega
              cases lt with
              | none =>
                have hx := ih (List.replicate k0 (mkTok .DEDENT (.str [ '\t' ]) st3.lineno st3.pos))
                  (some (mkTok .DEDENT (.str [ '\t' ]) st3.lineno st3.pos))
                  {st3 with curIndent := 0} []
                  {st3 with curIndent := 0, pos := st3.pos + 1} 1 hraw1 hdvd0 hbound
                have htok : BabelLexer.token ⟨st, [], none⟩ =
                    .ok (some (mkTok .DEDENT (.str [ '\t' ]) st3.lineno st3.pos),
                      ⟨{st3 with curIndent := 0},
                        List.replicate k0 (mkTok .DEDENT (.str [ '\t' ]) st3.lineno st3.pos),
                        some (mkTok .DEDENT (.str [ '\t' ]) st3.lineno st3.pos)⟩) := by
                  simp only [BabelLexer.token, hlex]
                  rw [if_pos hpos, hk0]
                  simp [List.replicate_succ]
                rw [runTokens, htok]
                simp only [hx]
                simp [hcl, hcl0, List.replicate_succ, flatToks, lastOr]
              | some t0 =>
                by_cases ht0 : t0.type = .NEWLINE ∨ t0.type = .LINE
                · have hx := ih (List.replicate k0 (mkTok .DEDENT (.str [ '\t' ]) st3.lineno st3.pos))
                    (some (mkTok .DEDENT (.str [ '\t' ]) st3.lineno st3.pos))
                    {st3 with curIndent := 0} []
                    {st3 with curIndent := 0, pos := st3.pos + 1} 1 hraw1 hdvd0 hbound
                  have htok : BabelLexer.token ⟨st, [], some t0⟩ =
                      .ok (some (mkTok .DEDENT (.str [ '\t' ]) st3.lineno st3.pos),
                        ⟨{st3 with curIndent := 0},
                          List.replicate k0 (mkTok .DEDENT (.str [ '\t' ]) st3.lineno st3.pos),
                          some (mkTok .DEDENT (.str [ '\t' ]) st3.lineno st3.pos)⟩) := by
                    simp only [BabelLexer.token, hlex]
                    rw [if_pos hpos, if_pos ht0, hk0]
                    simp [List.replicate_succ]
                  rw [runTokens, htok]
                  simp only [hx]
                  simp [hcl, hcl0, List.replicate_succ, flatToks, lastOr, ht0]
                · have hx := ih (List.replicate (k0 + 1) (mkTok .DEDENT (.str [ '\t' ]) st3.lineno st3.pos))
                    (some (mkTok .NEWLINE (.str [ '\n' ]) st3.lineno st3.pos))
                    {st3 with curIndent := 0} []
                    {st3 with curIndent := 0, pos := st3.pos + 1} 1 hraw1 hdvd0 hbound2
                  have htok : BabelLexer.token ⟨st, [], some t0⟩ =
                      .ok (some (mkTok .NEWLINE (.str [ '\n' ]) st3.lineno st3.pos),
                        ⟨{st3 with curIndent := 0},
                          List.replicate (k0 + 1) (mkTok .DEDENT (.str [ '\t' ]) st3.lineno st3.pos),
                          some (mkTok .NEWLINE (.str [ '\n' ]) st3.lineno st3.pos)⟩) := by
                    simp only [BabelLexer.token, hlex]
                    rw [if_pos hpos, if_neg ht0, hk0]
                    simp
                  rw [runTokens, htok]
                  simp only [hx]
                  simp [hcl, hcl0, flatToks, lastOr, ht0]
          · have htok : BabelLexer.token ⟨st, [], lt⟩ = .ok (none, ⟨st3, [], none⟩) := by
              simp only [BabelLexer.token, hlex]
              rw [if_neg hpos]
            rw [runTokens, htok]
            rw [closingToks_zero _ _ hpos]
            simp [flatToks]
        next e hlex =>
          injection hrs with h1 h2
          cases h2
        next hlex =>
          injection hrs with h1 h2
          cases h2

theorem runTokens_failed : ∀ (fuel : Nat) (q : List Token) (lt : Option Token)
    (st : LexState) (L : List (Token × List Token)) (e : String) (f : Nat),
    rawScanAll f st = (L, .failed e) →
    q.length + totalToks L + 1 ≤ fuel →
    runTokens fuel ⟨st, q, lt⟩ = .error e := by
  intro fuel
  induction fuel with
  | zero =>
    intro q lt st L e f hrs hle
    omega
  | succ fuel ih =>
    intro q lt st L e f hrs hle
    cases q with
    | cons t q3 =>
      have hx := ih q3 (some t) st L e f hrs
        (by simp only [List.length_cons] at hle; omega)
      have htok : BabelLexer.token ⟨st, t :: q3, lt⟩ =
          .ok (some t, ⟨st, q3, some t⟩) := rfl
      rw [runTokens, htok]
      simp only [hx]
    | nil =>
      cases f with
      | zero =>
        rw [rawScanAll] at hrs
        injection hrs with h1 h2
        cases h2
      | succ f2 =>
        rw [rawScanAll] at hrs
        split at hrs
        next t ts st3 hlex =>
          rcases hrs2 : rawScanAll f2 st3 with ⟨L2, e2⟩
          simp only [hrs2] at hrs
          injection hrs with h1 h2
          subst h1
          subst h2
          have hx := ih ts (some t) st3 L2 e f2 hrs2
            (by rw [totalToks_cons] at hle; simp only [List.length_nil] at hle; omega)
          have htok : BabelLexer.token ⟨st, [], lt⟩ =
              .ok (some t, ⟨st3, ts, some t⟩) := by
            simp only [BabelLexer.token, hlex]
          rw [runTokens, htok]
          simp only [hx]
        next st3 hlex =>
          injection hrs with h1 h2
          cases h2
        next e2 hlex =>
          injection hrs with h1 h2
          injection h2 with h2
          subst h2
          have htok : BabelLexer.token ⟨st, [], lt⟩ = .error e2 := by
            simp only [BabelLexer.token, hlex]
          rw [runTokens, htok]
        next hlex =>
          injection hrs with h1 h2
          cases h2

/-! ### tokenize characterization -/

theorem WFST_init (d : List Char) : WFST (initLex d) := Or.inl ⟨rfl, rfl⟩

theorem LinenoInv_init (d : List Char) : LinenoInv (initLex d) := by
  unfold LinenoInv initLex
  simp [countNl]

theorem runTokens_driver (s : List Char) (lt : Option Token)
    (L : List (Token × List Token)) (st2 : LexState)
    (h : collect (s ++ [ '\n' ]) = (L, .ended st2)) :
    runTokens (driverFuel (s ++ [ '\n' ])) ⟨initLex (s ++ [ '\n' ]), [], lt⟩ =
      .ok (flatToks L ++ closingToks st2 (lastOr (flatToks L) lt)) := by
  have hraw := h
  unfold collect at hraw
  obtain ⟨d1, d2, d3, d4, d5, d6⟩ := rawScanAll_ended_spec _ hraw
  have hcur : st2.curIndent = 4 * dentScore (flatToks L) := by
    simp only [initLex, LexState_curIndent_mk] at d3
    omega
  have hdvd : 0 < st2.curIndent → 0 < (st2.curIndent.fdiv 4).toNat := by
    intro hpos
    rw [hcur] at hpos ⊢
    rw [Int.mul_fdiv_cancel_left _ (by norm_num)]
    omega
  have hfuel : driverFuel (s ++ [ '\n' ])
      = totalToks L + (st2.curIndent.fdiv 4).toNat + 8 := by
    unfold driverFuel
    rw [h]
  rw [hfuel]
  refine runTokens_ended _ [] lt _ L st2 _ hraw hdvd ?_
  split
  · simp only [List.length_nil]
    omega
  · simp only [List.length_nil]
    omega

theorem tokenize_ended (s : List Char) (L : List (Token × List Token))
    (st2 : LexState) (h : collect (s ++ [ '\n' ]) = (L, .ended st2)) :
    tokenize s = .ok (flatToks L ++ closingToks st2 (lastOr (flatToks L) none)) := by
  show runTokens (driverFuel (s ++ [ '\n' ])) ⟨initLex (s ++ [ '\n' ]), [], none⟩ = _
  exact runTokens_driver s none L st2 h

theorem runTokens_driver_failed (s : List Char) (lt : Option Token)
    (L : List (Token × List Token)) (e : String)
    (h : collect (s ++ [ '\n' ]) = (L, .failed e)) :
    runTokens (driverFuel (s ++ [ '\n' ])) ⟨initLex (s ++ [ '\n' ]), [], lt⟩ =
      .error e := by
  have hraw := h
  unfold collect at hraw
  have hfuel : driverFuel (s ++ [ '\n' ]) = totalToks L + 0 + 8 := by
    unfold driverFuel
    rw [h]
    rfl
  rw [hfuel]
  refine runTokens_failed _ [] lt _ L e _ hraw ?_
  simp only [List.length_nil]
  omega

theorem tokenize_failed (s : List Char) (L : List (Token × List Token))
    (e : String) (h : collect (s ++ [ '\n' ]) = (L, .failed e)) :
    tokenize s = .error e := by
  show runTokens (driverFuel (s ++ [ '\n' ])) ⟨initLex (s ++ [ '\n' ]), [], none⟩ = _
  exact runTokens_driver_failed s none L e h

/-! ### List scanning helpers -/

theorem takeWhile_app (p : Char → Bool) (a b : List Char) (h : a.all p = true) :
    (a ++ b).takeWhile p = a ++ b.takeWhile p := by
  induction a with
  | nil => rfl
  | cons c cs ih =>
    simp only [List.all_cons, Bool.and_eq_true] at h
    simp only [List.cons_append, List.takeWhile_cons, h.1, if_true]
    rw [ih h.2]

theorem takeWhile_all (p : Char → Bool) (a : List Char) (h : a.all p = true) :
    a.takeWhile p = a := by
  have := takeWhile_app p a [] h
  simpa using this

theorem takeWhile_len_all (p : Char → Bool) (a : List Char)
    (h : (a.takeWhile p).length = a.length) : a.all p = true := by
  induction a with
  | nil => rfl
  | cons c cs ih =>
    rw [List.takeWhile_cons] at h
    by_cases hc : p c = true
    · rw [if_pos hc] at h
      simp only [List.length_cons] at h
      simp only [List.all_cons, hc, Bool.true_and]
      exact ih (by omega)
    · rw [if_neg hc] at h
      have h2 : (cs.takeWhile p).length ≤ cs.length :=
        (List.takeWhile_prefix p).length_le
      simp only [List.length_nil, List.length_cons] at h
      omega

theorem drop_len (a b : List Char) : (a ++ b).drop a.length = b := by
  induction a with
  | nil => rfl
  | cons c cs ih => simpa using ih

theorem take_len_add (a b : List Char) (k : Nat) :
    (a ++ b).take (a.length + k) = a ++ b.take k := by
  induction a with
  | nil => simp
  | cons c cs ih =>
    simp only [List.cons_append, List.length_cons]
    rw [show cs.length + 1 + k = (cs.length + k) + 1 by omega, List.take_succ_cons, ih]

theorem countNl_zero_of_all (a : List Char) (h : a.all neNl = true) :
    countNl a = 0 := by
  induction a with
  | nil => rfl
  | cons c cs ih =>
    simp only [List.all_cons, Bool.and_eq_true] at h
    have hc : isNl c = false := by
      have := h.1
      simp only [neNl, bne_iff_ne, ne_eq] at this
      simp [isNl, this]
    simp only [countNl, List.countP_cons, hc, if_false]
    exact ih h.2

theorem countNl_len_of_all (a : List Char) (h : a.all isNl = true) :
    countNl a = a.length := by
  induction a with
  | nil => rfl
  | cons c cs ih =>
    simp only [List.all_cons, Bool.and_eq_true] at h
    simp only [countNl, List.countP_cons, h.1, if_true, List.length_cons]
    have := ih h.2
    simp only [countNl] at this
    omega

theorem neNl_false_of_isNl {c : Char} (h : isNl c = true) : neNl c = false := by
  simp only [isNl, beq_iff_eq] at h
  simp [neNl, h]

/-! ### Matchers that cannot fire at a given head character -/

theorem matchBOOLEAN_none_head (p : Option Char) (c : Char) (cs : List Char)
    (h1 : 't' ≠ c) (h2 : 'f' ≠ c) : matchBOOLEAN p (c :: cs) = none := by
  simp [matchBOOLEAN, chars, List.isPrefixOf, beq_iff_eq, h1, h2]

theorem matchNULL_none_head (p : Option Char) (c : Char) (cs : List Char)
    (h1 : 'n' ≠ c) : matchNULL p (c :: cs) = none := by
  simp [matchNULL, chars, List.isPrefixOf, beq_iff_eq, h1]

theorem matchID_none_head (c : Char) (cs : List Char)
    (h : isIdStart c = false) : matchID (c :: cs) = none := by
  simp [matchID, h]

theorem matchPATH_none_head (c : Char) (cs : List Char)
    (h : ¬(c = '/')) : matchPATH (c :: cs) = none := by
  simp [matchPATH, h]

theorem matchDOUBLE_COLON_none_head (c : Char) (cs : List Char)
    (h : ¬(c = ':')) : matchDOUBLE_COLON (c :: cs) = none := by
  unfold matchDOUBLE_COLON
  split
  next heq => injection heq with heq1 heq2; exact absurd heq1 h
  next => rfl

theorem digitRun_zero_head (c : Char) (cs : List Char)
    (h : c.isDigit = false) : digitRun (c :: cs) = 0 := by
  simp [digitRun, List.takeWhile_cons, h]

theorem matchFLOAT_none_head (c : Char) (cs : List Char)
    (hd : c.isDigit = false) (hdot : ¬(c = '.'))
    (h19 : ('1' ≤ c && c ≤ '9') = false) : matchFLOAT (c :: cs) = none := by
  have hdec : matchFLOATdec (c :: cs) = none := by
    unfold matchFLOATdec
    rw [digitRun_zero_head c cs hd]
    simp only [List.drop_zero]
    split
    next heq => injection heq with heq1 heq2; exact absurd heq1 hdot
    next => rfl
  have hexp : matchFLOATexp (c :: cs) = none := by
    simp only [matchFLOATexp]
    rw [h19]
    simp
  unfold matchFLOAT
  rw [hdec, hexp]

theorem matchINTEGER_none_head (c : Char) (cs : List Char)
    (h : c.isDigit = false) : matchINTEGER (c :: cs) = none := by
  unfold matchINTEGER
  rw [digitRun_zero_head c cs h]
  rfl

theorem matchSTRING_none_head (c : Char) (cs : List Char)
    (h : ¬(c = '"')) : matchSTRING (c :: cs) = none := by
  unfold matchSTRING
  split
  next heq => injection heq with heq1 heq2; exact absurd heq1 h
  next => rfl

theorem matchComment_none_head (c : Char) (cs : List Char)
    (h : ¬(c = '#')) : matchComment (c :: cs) = none := by
  unfold matchComment
  split
  next heq => injection heq with heq1 heq2; exact absurd heq1 h
  next => rfl

theorem matchNEWLINE_none_head (c : Char) (cs : List Char)
    (h : isNl c = false) : matchNEWLINE (c :: cs) = none := by
  simp [matchNEWLINE, List.takeWhile_cons, h]

/-! ### The comment pattern on a decomposed remainder -/

theorem matchComment_spec (body nls rest3 : List Char)
    (hb : body.all neNl = true) (hn : nls.all isNl = true) (hne : nls ≠ [])
    (hr : rest3 = [] ∨ ∃ c cs, rest3 = c :: cs ∧ isNl c = false) :
    matchComment ('#' :: (body ++ nls ++ rest3)) =
      some (1 + body.length + nls.length) := by
  obtain ⟨m, ms, hms⟩ := List.exists_cons_of_ne_nil hne
  have hm : isNl m = true := by
    rw [hms] at hn
    simp only [List.all_cons, Bool.and_eq_true] at hn
    exact hn.1
  have htw : ((body ++ nls ++ rest3).takeWhile neNl) = body := by
    rw [List.append_assoc, takeWhile_app neNl body (nls ++ rest3) hb, hms]
    simp [List.takeWhile_cons, neNl_false_of_isNl hm]
  have hdw : ((body ++ nls ++ rest3).drop body.length) = nls ++ rest3 := by
    rw [List.append_assoc]
    exact drop_len body (nls ++ rest3)
  have htw2 : ((nls ++ rest3).takeWhile isNl) = nls := by
    rw [takeWhile_app isNl nls rest3 hn]
    rcases hr with hr | ⟨c, cs, hcs, hc⟩
    · simp [hr]
    · simp [hcs, List.takeWhile_cons, hc]
  unfold matchComment
  simp only [htw, hdw, htw2]
  rw [if_neg (by
    have : nls.length ≠ 0 := by
      rw [hms]
      simp
    omega)]

/-! ### Dispatch facts: which rule fires at a given head -/

theorem normalHit_comment (st : LexState) (r : List Char) (n : Nat)
    (hm : matchComment ('#' :: r) = some n) :
    normalHit st ('#' :: r) = .cont (actComment st n) := by
  unfold normalHit
  rw [matchBOOLEAN_none_head _ _ _ (by decide) (by decide),
    matchNULL_none_head _ _ _ (by decide),
    matchID_none_head _ _ (by decide),
    matchPATH_none_head _ _ (by decide),
    matchDOUBLE_COLON_none_head _ _ (by decide),
    matchFLOAT_none_head _ _ (by decide) (by decide) (by decide),
    matchINTEGER_none_head _ _ (by decide),
    matchSTRING_none_head _ _ (by decide), hm]

theorem normalHit_newline (st : LexState) (cs : List Char) (n : Nat)
    (hm : matchNEWLINE ('\n' :: cs) = some n) :
    normalHit st ('\n' :: cs) = .res (actNEWLINE st n) := by
  unfold normalHit
  rw [matchBOOLEAN_none_head _ _ _ (by decide) (by decide),
    matchNULL_none_head _ _ _ (by decide),
    matchID_none_head _ _ (by decide),
    matchPATH_none_head _ _ (by decide),
    matchDOUBLE_COLON_none_head _ _ (by decide),
    matchFLOAT_none_head _ _ (by decide) (by decide) (by decide),
    matchINTEGER_none_head _ _ (by decide),
    matchSTRING_none_head _ _ (by decide),
    matchComment_none_head _ _ (by decide), hm]

/-! ### Closing-token anatomy -/

theorem countTok_closing (st : LexState) (lt : Option Token) :
    countTok .INDENT (closingToks st lt) = 0 ∧
    countTok .DOUBLE_COLON (closingToks st lt) = 0 ∧
    countTok .DEDENT (closingToks st lt) =
      (if 0 < st.curIndent then (st.curIndent.fdiv 4).toNat else 0) := by
  rcases lt with _ | t
  · by_cases hpos : 0 < st.curIndent
    · simp [closingToks, hpos, countTok_append, countTok_replicate, countTok_nil,
        mkTok]
    · simp [closingToks, hpos, countTok_nil]
  · by_cases hty : t.type = .NEWLINE ∨ t.type = .LINE
    · by_cases hpos : 0 < st.curIndent
      · simp [closingToks, hpos, hty, countTok_append, countTok_replicate,
          countTok_nil, mkTok]
      · simp [closingToks, hpos, countTok_nil]
    · by_cases hpos : 0 < st.curIndent
      · simp [closingToks, hpos, hty, countTok_append, countTok_replicate,
          countTok_nil, countTok_cons, mkTok]
      · simp [closingToks, hpos, countTok_nil]

theorem closingToks_mem (st : LexState) (lt : Option Token) (x : Token)
    (hx : x ∈ closingToks st lt) : x.lineno = st.lineno ∧ x.lexpos = st.pos := by
  by_cases hpos : 0 < st.curIndent
  · rcases lt with _ | t
    · simp only [closingToks, if_pos hpos] at hx
      simp only [List.nil_append] at hx
      have := List.eq_of_mem_replicate hx
      subst this
      exact ⟨rfl, rfl⟩
    · simp only [closingToks, if_pos hpos] at hx
      by_cases hty : t.type = .NEWLINE ∨ t.type = .LINE
      · rw [if_pos hty] at hx
        simp only [List.nil_append] at hx
        have := List.eq_of_mem_replicate hx
        subst this
        exact ⟨rfl, rfl⟩
      · rw [if_neg hty] at hx
        rcases List.mem_append.mp hx with hx | hx
        · simp only [List.mem_singleton] at hx
          subst hx
          exact ⟨rfl, rfl⟩
        · have := List.eq_of_mem_replicate hx
          subst this
          exact ⟨rfl, rfl⟩
  · rw [closingToks_zero st lt hpos] at hx
    simp at hx

theorem lastOr_default (t : Token) (l : List Token) (d d2 : Option Token) :
    lastOr (t :: l) d = lastOr (t :: l) d2 := by
  unfold lastOr
  cases hgl : (t :: l).getLast? with
  | none => simp at hgl
  | some y => rfl

/-! ### Freetext scanning without a newline never yields a token -/

theorem freetext_no_nl_no_toks : ∀ (fuel : Nat) (st : LexState) (t : Token)
    (ts : List Token) (st2 : LexState),
    st.mode = .freetext → (st.data.drop st.pos).all neNl = true →
    lexToken fuel st ≠ .toks t ts st2 := by
  intro fuel
  induction fuel with
  | zero => intro st t ts st2 hm ha h; cases h
  | succ f ih =>
    intro st t ts st2 hm ha h
    rw [lexToken] at h
    split at h
    next heq => cases h
    next c cs heq =>
      have hcs : st.data.drop (st.pos + 1) = cs := by
        rw [← List.drop_drop 1 st.pos st.data, heq]
        simp
      have hacs : cs.all neNl = true := by
        rw [heq] at ha
        simp only [List.all_cons, Bool.and_eq_true] at ha
        exact ha.2
      split at h
      next hsp =>
        exact ih {st with pos := st.pos + 1} t ts st2 (by simp [hm])
          (by simpa [hcs] using hacs) h
      next hsp =>
        have hml : matchLINE (c :: cs) = none := by
          unfold matchLINE
          rw [if_pos]
          rw [takeWhile_all neNl (c :: cs) (by rw [← heq]; exact ha)]
        rw [show stateHit st (c :: cs) = freetextHit st (c :: cs) by
            simp [stateHit, hm]] at h
        unfold freetextHit at h
        rw [hml] at h
        exact ih {st with pos := st.pos + 1} t ts st2 (by simp [hm])
          (by simpa [hcs] using hacs) h

/-- One unfolding step of `lexToken` at a non-empty remainder. -/
theorem lexToken_cons (fuel : Nat) (st : LexState) (c : Char) (cs : List Char)
    (heq : st.data.drop st.pos = c :: cs) :
    lexToken (fuel + 1) st =
      if isSpaceTab c then lexToken fuel {st with pos := st.pos + 1}
      else match stateHit st (c :: cs) with
        | .res r => r
        | .cont st2 => lexToken fuel st2
        | .miss => lexToken fuel {st with pos := st.pos + 1} := by
  rw [lexToken, heq]

/-! ### Claim C1 -/

/-- Claim C1 (counterexample): the document `"::\nx"` is well formed (it
tokenizes without error), but its stream has no INDENT token and one DEDENT
token — `t_DOUBLE_COLON` raises `cur_indent` without emitting an INDENT, so the
closing DEDENT is unmatched. -/
theorem indent_dedent_balance_cex :
    ∃ ts, tokenize (chars "::\nx") = .ok ts ∧
      countTok .INDENT ts = 0 ∧ countTok .DEDENT ts = 1 :=
  ⟨[mkTok .DOUBLE_COLON (.str (chars "::")) 1 0,
    mkTok .LINE (.str [ '\n' ]) 1 2,
    mkTok .DEDENT (.str [ '\t' ]) 2 3,
    mkTok .ID (.str [ 'x' ]) 2 3,
    mkTok .NEWLINE (.str [ '\n' ]) 2 4], by decide, by decide, by decide⟩

/-- Claim C1 (amended): over any successfully tokenized document, the DEDENT
count equals the INDENT count plus the DOUBLE_COLON count — each `::` raises
the indentation baseline exactly like an INDENT, and end-of-input closing emits
`cur_indent / 4` DEDENTs, so the signed account always returns to zero. -/
theorem dedent_count_eq_indent_plus_dcolon :
    ∀ (s : List Char) (ts : List Token), tokenize s = .ok ts →
      countTok .DEDENT ts = countTok .INDENT ts + countTok .DOUBLE_COLON ts := by
  intro s ts h
  rcases hcol : collect (s ++ [ '\n' ]) with ⟨L, e⟩
  cases e with
  | ended st2 =>
    have hok := tokenize_ended s L st2 hcol
    rw [h] at hok
    injection hok with hok
    subst hok
    have hraw := hcol
    unfold collect at hraw
    obtain ⟨d1, d2, d3, d4, d5, d6⟩ := rawScanAll_ended_spec _ hraw
    simp only [initLex, LexState_curIndent_mk] at d3 d4
    have hnn : (0 : Int) ≤ st2.curIndent := d4 (le_refl 0)
    obtain ⟨e1, e2, e3⟩ := countTok_closing st2 (lastOr (flatToks L) none)
    rw [countTok_append, countTok_append, countTok_append, e1, e2, e3]
    have hds : dentScore (flatToks L)
        = (countTok .INDENT (flatToks L) : Int)
          + (countTok .DOUBLE_COLON (flatToks L) : Int)
          - (countTok .DEDENT (flatToks L) : Int) := rfl
    rw [hds] at d3
    by_cases hpos : 0 < st2.curIndent
    · rw [if_pos hpos]
      have hfd : st2.curIndent.fdiv 4
          = (countTok .INDENT (flatToks L) : Int)
            + (countTok .DOUBLE_COLON (flatToks L) : Int)
            - (countTok .DEDENT (flatToks L) : Int) := by
        have h4 : st2.curIndent = 4 * ((countTok .INDENT (flatToks L) : Int)
            + (countTok .DOUBLE_COLON (flatToks L) : Int)
            - (countTok .DEDENT (flatToks L) : Int)) := by omega
        rw [h4, Int.mul_fdiv_cancel_left _ (by norm_num)]
      rw [hfd]
      omega
    · rw [if_neg hpos]
      omega
  | failed e2 =>
    have hbad := tokenize_failed s L e2 hcol
    rw [h] at hbad
    cases hbad
  | gas =>
    have hng := collect_not_gas (s ++ [ '\n' ])
    rw [hcol] at hng
    exact absurd rfl hng

/-- Claim C1 witness: the document `"a\n    b"` tokenizes, and its DEDENT count
equals its INDENT count plus its DOUBLE_COLON count. -/
theorem dedent_count_eq_indent_plus_dcolon_witness :
    tokenize (chars "a\n    b") = .ok
      [mkTok .ID (.str [ 'a' ]) 1 0,
       mkTok .NEWLINE (.str [ '\n' ]) 1 1,
       mkTok .INDENT (.str [ '\t' ]) 2 2,
       mkTok .ID (.str [ 'b' ]) 2 6,
       mkTok .NEWLINE (.str [ '\n' ]) 2 7,
       mkTok .DEDENT (.str [ '\t' ]) 3 9] ∧
    countTok .DEDENT
        [mkTok .ID (.str [ 'a' ]) 1 0,
         mkTok .NEWLINE (.str [ '\n' ]) 1 1,
         mkTok .INDENT (.str [ '\t' ]) 2 2,
         mkTok .ID (.str [ 'b' ]) 2 6,
         mkTok .NEWLINE (.str [ '\n' ]) 2 7,
         mkTok .DEDENT (.str [ '\t' ]) 3 9] =
      countTok .INDENT
          [mkTok .ID (.str [ 'a' ]) 1 0,
           mkTok .NEWLINE (.str [ '\n' ]) 1 1,
           mkTok .INDENT (.str [ '\t' ]) 2 2,
           mkTok .ID (.str [ 'b' ]) 2 6,
           mkTok .NEWLINE (.str [ '\n' ]) 2 7,
           mkTok .DEDENT (.str [ '\t' ]) 3 9] +
        countTok .DOUBLE_COLON
          [mkTok .ID (.str [ 'a' ]) 1 0,
           mkTok .NEWLINE (.str [ '\n' ]) 1 1,
           mkTok .INDENT (.str [ '\t' ]) 2 2,
           mkTok .ID (.str [ 'b' ]) 2 6,
           mkTok .NEWLINE (.str [ '\n' ]) 2 7,
           mkTok .DEDENT (.str [ '\t' ]) 3 9] :=
  ⟨by decide, dedent_count_eq_indent_plus_dcolon (chars "a\n    b") _ (by decide)⟩

/-! ### Claim C2 -/

/-- Claim C2: `t_BOOLEAN` sets `token.value = bool(token.value)`, and the
Python `bool` of a non-empty string is `True` — so both `true` and `false`
tokenize to a BOOLEAN token whose resolved value is `true`.  The word `false`
does NOT resolve to the boolean false, contradicting the specified resolved
values. -/
theorem boolean_words_resolve_true :
    tokenize (chars "false") = .ok
      [mkTok .BOOLEAN (.boolV true) 1 0, mkTok .NEWLINE (.str [ '\n' ]) 1 5] ∧
    tokenize (chars "true") = .ok
      [mkTok .BOOLEAN (.boolV true) 1 0, mkTok .NEWLINE (.str [ '\n' ]) 1 4] ∧
    pyBool (chars "false") = true :=
  ⟨by decide, by decide, rfl⟩

/-! ### Claim C7 -/

/-- Claim C7: scanning is total up to the one fatal bad-indentation failure:
every document either yields a complete token stream or fails with exactly the
message of `raise Exception('Indent was not divisible by 4.')`.  An
unrecognized character (here `@`) is skipped by `t_error` and still yields a
stream, while an indentation delta not divisible by 4 aborts. -/
theorem scan_total_or_indent_error :
    (∀ s : List Char, (∃ ts, tokenize s = .ok ts) ∨ tokenize s = .error indentMsg) ∧
    tokenize (chars "a\n  b") = .error indentMsg ∧
    tokenize (chars "@") = .ok [mkTok .NEWLINE (.str [ '\n' ]) 1 1] := by
  refine ⟨?_, by decide, by decide⟩
  intro s
  rcases hcol : collect (s ++ [ '\n' ]) with ⟨L, e⟩
  cases e with
  | ended st2 => exact Or.inl ⟨_, tokenize_ended s L st2 hcol⟩
  | failed e2 =>
    have hraw := hcol
    unfold collect at hraw
    have hmsg : e2 = indentMsg := rawScanAll_failed_msg _ hraw (WFST_init _)
    exact Or.inr (hmsg ▸ tokenize_failed s L e2 hcol)
  | gas =>
    have hng := collect_not_gas (s ++ [ '\n' ])
    rw [hcol] at hng
    exact absurd rfl hng

/-! ### Claim C8 -/

/-- Claim C8 (counterexample): `"::\n"` already ends in a newline, yet its
token stream differs from that of the same text with one more newline appended
— because `input` appends `'\n'` unconditionally, each extra newline becomes an
extra free-text LINE token. -/
theorem trailing_newline_append_cex :
    (chars "::\n").getLast? = some '\n' ∧
    tokenize (chars "::\n") ≠ tokenize (chars "::\n" ++ [ '\n' ]) :=
  ⟨by decide, by decide⟩

/-- Claim C8 (amended): the trailing newline is appended unconditionally —
`input` always feeds `file_data + '\n'` to the PLY lexer, whether or not the
document already ends in a newline. -/
theorem newline_appended_unconditionally :
    ∀ (b : BabelLexer) (s : List Char),
      BabelLexer.input b s = ⟨initLex (s ++ [ '\n' ]), [], b.lastToken⟩ ∧
      tokenize s =
        runTokens (driverFuel (s ++ [ '\n' ])) ⟨initLex (s ++ [ '\n' ]), [], none⟩ :=
  fun b s => ⟨rfl, rfl⟩

/-! ### Claim C9 -/

/-- Claim C9: tokenizing a document on any previously used `BabelLexer`
instance (whatever its `last_token` holds from an earlier document) produces
exactly the stream of a fresh instance: `input` rebuilds all scan state, and
the one piece it does not reset (`last_token`) is never observable — it is
consulted only at end-of-input closing, after the fresh scan has either
delivered a token of its own or kept `cur_indent` at zero. -/
theorem tokenize_instance_independent :
    ∀ (b : BabelLexer) (s : List Char),
      runTokens (driverFuel (s ++ [ '\n' ])) (BabelLexer.input b s) = tokenize s := by
  intro b s
  show runTokens (driverFuel (s ++ [ '\n' ])) ⟨initLex (s ++ [ '\n' ]), [], b.lastToken⟩ = _
  rcases hcol : collect (s ++ [ '\n' ]) with ⟨L, e⟩
  cases e with
  | ended st2 =>
    rw [runTokens_driver s b.lastToken L st2 hcol, tokenize_ended s L st2 hcol]
    cases hfl : flatToks L with
    | nil =>
      have hraw := hcol
      unfold collect at hraw
      obtain ⟨d1, d2, d3, d4, d5, d6⟩ := rawScanAll_ended_spec _ hraw
      rw [hfl, dentScore_nil] at d3
      simp only [initLex, LexState_curIndent_mk] at d3
      have hz : ¬(0 < st2.curIndent) := by omega
      rw [closingToks_zero st2 _ hz, closingToks_zero st2 _ hz]
    | cons t ts2 =>
      rw [lastOr_default t ts2 b.lastToken none]
  | failed e2 =>
    rw [runTokens_driver_failed s b.lastToken L e2 hcol, tokenize_failed s L e2 hcol]
  | gas =>
    have hng := collect_not_gas (s ++ [ '\n' ])
    rw [hcol] at hng
    exact absurd rfl hng

/-! ### Claim C10 -/

/-- Claim C10: `t_STRING` consumes raw newlines without advancing `lineno`, so
every token's recorded line number only ever lags the true physical line
number: `t.lineno ≤ 1 + (newlines before t.lexpos)` over every tokenized
document, and after the two-line string in `"\"a\nb\"\nc"` the identifier `c`
carries line number 2 while it physically sits on line 3 (strict lag). -/
theorem lineno_lags_uncounted_newlines :
    (∀ (s : List Char) (ts : List Token), tokenize s = .ok ts →
       ∀ t ∈ ts, t.lineno ≤ 1 + countNl ((s ++ [ '\n' ]).take t.lexpos)) ∧
    tokenize (chars "\"a\nb\"\nc") = .ok
      [mkTok .STRING (.str [ 'a', '\n', 'b' ]) 1 0,
       mkTok .NEWLINE (.str [ '\n' ]) 1 5,
       mkTok .ID (.str [ 'c' ]) 2 6,
       mkTok .NEWLINE (.str [ '\n' ]) 2 7] ∧
    2 < 1 + countNl ((chars "\"a\nb\"\nc" ++ [ '\n' ]).take 6) := by
  refine ⟨?_, by decide, by decide⟩
  intro s ts h t ht
  rcases hcol : collect (s ++ [ '\n' ]) with ⟨L, e⟩
  cases e with
  | ended st2 =>
    have hok := tokenize_ended s L st2 hcol
    rw [h] at hok
    injection hok with hok
    subst hok
    have hraw := hcol
    unfold collect at hraw
    obtain ⟨d1, d2, d3, d4, d5, d6⟩ := rawScanAll_ended_spec _ hraw
    obtain ⟨j1, j2⟩ := d5 (LinenoInv_init _)
    rcases List.mem_append.mp ht with ht | ht
    · have hb := j1 t ht
      simp only [initLex, LexState_data_mk] at hb
      exact hb
    · obtain ⟨hl, hp⟩ := closingToks_mem st2 _ t ht
      rw [hl, hp]
      unfold LinenoInv at j2
      rw [d1] at j2
      simp only [initLex, LexState_data_mk] at j2
      exact j2
  | failed e2 =>
    have hbad := tokenize_failed s L e2 hcol
    rw [h] at hbad
    cases hbad
  | gas =>
    have hng := collect_not_gas (s ++ [ '\n' ])
    rw [hcol] at hng
    exact absurd rfl hng

/-- Claim C10 witness: on the one-identifier document `"a"`, the first token is
in the stream and satisfies the line-number bound. -/
theorem lineno_lags_uncounted_newlines_witness :
    tokenize (chars "a") = .ok
      [mkTok .ID (.str [ 'a' ]) 1 0, mkTok .NEWLINE (.str [ '\n' ]) 1 1] ∧
    mkTok .ID (.str [ 'a' ]) 1 0 ∈
      [mkTok .ID (.str [ 'a' ]) 1 0, mkTok .NEWLINE (.str [ '\n' ]) 1 1] ∧
    (mkTok .ID (.str [ 'a' ]) 1 0).lineno ≤
      1 + countNl ((chars "a" ++ [ '\n' ]).take (mkTok .ID (.str [ 'a' ]) 1 0).lexpos) :=
  ⟨by decide, by decide,
    lineno_lags_uncounted_newlines.1 (chars "a")
      [mkTok .ID (.str [ 'a' ]) 1 0, mkTok .NEWLINE (.str [ '\n' ]) 1 1]
      (by decide) (mkTok .ID (.str [ 'a' ]) 1 0) (by decide)⟩

/-! ### Claim C3 -/

/-- Claim C3 (counterexample): in the free-text block of `"::\n    hi"`, the
physical line `"    hi\n"` is captured as the LINE token `"hi\n"` — the leading
whitespace is consumed by `t_freetext_ignore` before `t_freetext_LINE` runs, so
the line is not captured verbatim. -/
theorem freetext_line_verbatim_cex :
    tokenize (chars "::\n    hi") = .ok
      [mkTok .DOUBLE_COLON (.str (chars "::")) 1 0,
       mkTok .LINE (.str [ '\n' ]) 1 2,
       mkTok .LINE (.str (chars "hi\n")) 2 7,
       mkTok .DEDENT (.str [ '\t' ]) 3 11] ∧
    TokValue.str (chars "hi\n") ≠ TokValue.str (chars "    hi\n") :=
  ⟨by decide, by decide⟩

/-- Claim C3 (amended): every token a free-text scan emits is a LINE token
whose text is the remainder of the physical line after the ignored leading
spaces and tabs, up to and including the terminating newline — verbatim except
for that stripped leading whitespace. -/
theorem freetext_line_strips_leading_ws :
    ∀ (fuel : Nat) (st : LexState) (t : Token) (ts : List Token) (st2 : LexState),
      st.mode = .freetext → lexToken fuel st = .toks t ts st2 →
      t.type = .LINE ∧
      t.value = .str (((st.data.drop st.pos).dropWhile isSpaceTab).takeWhile neNl
        ++ [ '\n' ]) := by
  intro fuel
  induction fuel with
  | zero => intro st t ts st2 hm h; cases h
  | succ f ih =>
    intro st t ts st2 hm h
    rw [lexToken] at h
    split at h
    next heq => cases h
    next c cs heq =>
      have hcs : st.data.drop (st.pos + 1) = cs := by
        rw [← List.drop_drop 1 st.pos st.data, heq]
        simp
      split at h
      next hsp =>
        have hrec := ih {st with pos := st.pos + 1} t ts st2 (by simp [hm]) h
        simp only [LexState_data_mk, LexState_pos_mk] at hrec
        rw [hcs] at hrec
        rw [heq, List.dropWhile_cons, if_pos hsp]
        exact hrec
      next hsp =>
        split at h
        next r hhit =>
          subst h
          rw [show stateHit st (c :: cs) = freetextHit st (c :: cs) by
              simp [stateHit, hm]] at hhit
          unfold freetextHit at hhit
          cases hml : matchLINE (c :: cs) with
          | none =>
            rw [hml] at hhit
            cases hhit
          | some n =>
            rw [hml] at hhit
            injection hhit with hhit
            obtain ⟨e1, e2, e3, e4, e5, e6, e7, e8⟩ := actLINE_elim hhit
            subst e1
            refine ⟨rfl, ?_⟩
            show TokValue.str (lexemeAt st n) = _
            unfold lexemeAt
            rw [heq, List.dropWhile_cons, if_neg hsp]
            obtain ⟨m1, m2⟩ := matchLINE_take hml
            rw [m1]
        next st1 hhit =>
          rw [show stateHit st (c :: cs) = freetextHit st (c :: cs) by
              simp [stateHit, hm]] at hhit
          exact absurd hhit (fun hx => freetextHit_ne_cont hx)
        next hhit =>
          rw [show stateHit st (c :: cs) = freetextHit st (c :: cs) by
              simp [stateHit, hm]] at hhit
          unfold freetextHit at hhit
          cases hml : matchLINE (c :: cs) with
          | some n =>
            rw [hml] at hhit
            cases hhit
          | none =>
            have hall : (c :: cs).all neNl = true := by
              unfold matchLINE at hml
              split at hml
              next hlen => exact takeWhile_len_all neNl (c :: cs) hlen
              next => cases hml
            have hall2 : cs.all neNl = true := by
              simp only [List.all_cons, Bool.and_eq_true] at hall
              exact hall.2
            refine absurd h (freetext_no_nl_no_toks f {st with pos := st.pos + 1}
              t ts st2 (by simp [hm]) ?_)
            simp only [LexState_data_mk, LexState_pos_mk]
            rw [hcs]
            exact hall2

/-- Claim C3 witness: scanning `"  hi\nx\n"` in free-text state emits the LINE
token `"hi\n"` — the physical line with its two leading spaces stripped. -/
theorem freetext_line_strips_leading_ws_witness :
    (⟨chars "  hi\nx\n", 0, 1, .freetext, [.INITIAL], 4⟩ : LexState).mode
        = .freetext ∧
    lexToken 20 ⟨chars "  hi\nx\n", 0, 1, .freetext, [.INITIAL], 4⟩ =
      .toks (mkTok .LINE (.str (chars "hi\n")) 1 2)
        [mkTok .DEDENT (.str [ '\t' ]) 2 5]
        ⟨chars "  hi\nx\n", 5, 2, .INITIAL, [], 0⟩ ∧
    ((mkTok .LINE (.str (chars "hi\n")) 1 2).type = .LINE ∧
      (mkTok .LINE (.str (chars "hi\n")) 1 2).value =
        .str ((((chars "  hi\nx\n").drop 0).dropWhile isSpaceTab).takeWhile neNl
          ++ [ '\n' ])) :=
  ⟨rfl, by decide,
    freetext_line_strips_leading_ws 20
      ⟨chars "  hi\nx\n", 0, 1, .freetext, [.INITIAL], 4⟩
      (mkTok .LINE (.str (chars "hi\n")) 1 2)
      [mkTok .DEDENT (.str [ '\t' ]) 2 5]
      ⟨chars "  hi\nx\n", 5, 2, .INITIAL, [], 0⟩ rfl (by decide)⟩

/-! ### Claim C4 -/

/-- Claim C4 (counterexample): the comment pattern is `[#][^\n]*\n+` — the `\n+`
is greedy, so on `"#c\n\nx\n"` the comment consumes 4 characters (`#c` plus BOTH
newlines), not the 3 of its own line; the cursor lands on the `x`, skipping the
start of the blank line, and the blank line produces no NEWLINE token. -/
theorem comment_one_line_cex :
    matchComment (chars "#c\n\nx\n") = some 4 ∧ some 4 ≠ some 3 ∧
    tokenize (chars "#c\n\nx") = .ok
      [mkTok .ID (.str [ 'x' ]) 3 4, mkTok .NEWLINE (.str [ '\n' ]) 3 5] :=
  ⟨by decide, by decide, by decide⟩

/-- Claim C4 (amended): a `#` comment in Normal mode consumes its own line AND
the whole maximal run of newlines that follows it, produces no token, and
advances the line counter by the number of newlines consumed: scanning resumes
at the first character after that newline run. -/
theorem comment_consumes_newline_run :
    ∀ (fuel : Nat) (st : LexState) (body nls rest3 : List Char),
      st.mode = .INITIAL →
      st.data.drop st.pos = '#' :: (body ++ nls ++ rest3) →
      body.all neNl = true → nls.all isNl = true → nls ≠ [] →
      (rest3 = [] ∨ ∃ c cs, rest3 = c :: cs ∧ isNl c = false) →
      lexToken (fuel + 1) st =
        lexToken fuel {st with pos := st.pos + (1 + body.length + nls.length),
                               lineno := st.lineno + nls.length} := by
  intro fuel st body nls rest3 hm heq hb hn hne hr
  have hmc := matchComment_spec body nls rest3 hb hn hne hr
  rw [lexToken_cons fuel st '#' (body ++ nls ++ rest3) heq]
  rw [if_neg (by decide : ¬(isSpaceTab '#' = true))]
  rw [show stateHit st ('#' :: (body ++ nls ++ rest3))
      = normalHit st ('#' :: (body ++ nls ++ rest3)) by simp [stateHit, hm]]
  rw [normalHit_comment st _ _ hmc]
  show lexToken fuel (actComment st (1 + body.length + nls.length)) = _
  congr 1
  unfold actComment
  have hlex : lexemeAt st (1 + body.length + nls.length)
      = '#' :: (body ++ nls) := by
    unfold lexemeAt
    rw [heq]
    show ('#' :: (body ++ nls ++ rest3)).take (1 + body.length + nls.length) = _
    rw [show 1 + body.length + nls.length = (body.length + nls.length) + 1 by omega,
      List.take_succ_cons]
    rw [show body.length + nls.length = (body ++ nls).length + 0 by simp,
      take_len_add]
    simp
  rw [hlex]
  have hcount : countNl ('#' :: (body ++ nls)) = nls.length := by
    have h1 := countNl_zero_of_all body hb
    have h2 := countNl_len_of_all nls hn
    simp only [countNl, List.countP_cons, List.countP_append] at h1 h2 ⊢
    rw [show isNl '#' = false from by decide]
    simp only [Bool.false_eq_true, if_false]
    omega
  rw [hcount]

/-- Claim C4 witness: on `"#c\nx\n"`, one scan step from the comment consumes
`#c\n` (3 characters, one newline) and resumes at the `x` on line 2. -/
theorem comment_consumes_newline_run_witness :
    ((chars "#c\nx\n").drop 0 = '#' :: ([ 'c' ] ++ [ '\n' ] ++ chars "x\n") ∧
      [ 'c' ].all neNl = true ∧ [ '\n' ].all isNl = true) ∧
    lexToken 11 ⟨chars "#c\nx\n", 0, 1, .INITIAL, [], 0⟩ =
      lexToken 10 ⟨chars "#c\nx\n", 3, 2, .INITIAL, [], 0⟩ :=
  ⟨⟨by decide, by decide, by decide⟩,
    comment_consumes_newline_run 10 ⟨chars "#c\nx\n", 0, 1, .INITIAL, [], 0⟩
      [ 'c' ] [ '\n' ] (chars "x\n") rfl (by decide) (by decide) (by decide)
      (by decide) (Or.inr ⟨'x', [ '\n' ], by decide, by decide⟩)⟩

/-! ### Claim C5 -/

/-- Claim C5 (counterexample): `null` is tokenized as a NULL literal, not as an
identifier — `t_BOOLEAN` and `t_NULL` are defined before `t_ID`, and PLY tries
function rules in definition order, so the literal rules win the tie. -/
theorem id_priority_cex :
    tokenize (chars "null") = .ok
      [mkTok .NULL .nullV 1 0, mkTok .NEWLINE (.str [ '\n' ]) 1 4] ∧
    TokType.NULL ≠ TokType.ID :=
  ⟨by decide, by decide⟩

/-- Claim C5 (amended): whenever `t_BOOLEAN` or `t_NULL` matches at the cursor,
`t_ID` matches there too, and the Normal-mode dispatch resolves the tie in
favour of the literal rule (the literal rules are tried before the identifier
rule, in PLY definition order). -/
theorem boolean_null_beat_id :
    ∀ (st : LexState) (n : Nat),
      (matchBOOLEAN (prevChar st) (st.data.drop st.pos) = some n →
        (∃ m, matchID (st.data.drop st.pos) = some m) ∧
        normalHit st (st.data.drop st.pos) =
          .res (.toks (mkTok .BOOLEAN (.boolV (pyBool (lexemeAt st n)))
            st.lineno st.pos) [] {st with pos := st.pos + n})) ∧
      (matchNULL (prevChar st) (st.data.drop st.pos) = some n →
        (∃ m, matchID (st.data.drop st.pos) = some m) ∧
        normalHit st (st.data.drop st.pos) =
          .res (.toks (mkTok .NULL .nullV st.lineno st.pos) []
            {st with pos := st.pos + n})) := by
  intro st n
  constructor
  · intro h
    constructor
    · have hb := h
      cases hrest : st.data.drop st.pos with
      | nil =>
        rw [hrest] at hb
        unfold matchBOOLEAN at hb
        rw [show (chars "true").isPrefixOf ([] : List Char) = false from by decide,
          show (chars "false").isPrefixOf ([] : List Char) = false from by decide] at hb
        simp at hb
      | cons c cs =>
        rw [hrest] at hb
        unfold matchBOOLEAN at hb
        have hc : isIdStart c = true := by
          split at hb
          · split at hb
            next hpre =>
              rw [Bool.and_eq_true] at hpre
              have hp1 := hpre.1
              rw [show chars "true" = [ 't', 'r', 'u', 'e' ] from rfl] at hp1
              simp only [List.isPrefixOf, Bool.and_eq_true, beq_iff_eq] at hp1
              rw [← hp1.1]
              decide
            next =>
              split at hb
              next hpre =>
                rw [Bool.and_eq_true] at hpre
                have hp1 := hpre.1
                rw [show chars "false" = [ 'f', 'a', 'l', 's', 'e' ] from rfl] at hp1
                simp only [List.isPrefixOf, Bool.and_eq_true, beq_iff_eq] at hp1
                rw [← hp1.1]
                decide
              next => cases hb
          · cases hb
        refine ⟨1 + (cs.takeWhile isIdCont).length, ?_⟩
        simp only [matchID]
        rw [if_pos hc]
    · unfold normalHit
      rw [h]
      exact rfl
  · intro h
    cases hrest : st.data.drop st.pos with
    | nil =>
      rw [hrest] at h
      unfold matchNULL at h
      rw [show (chars "null").isPrefixOf ([] : List Char) = false from by decide] at h
      simp at h
    | cons c cs =>
      rw [hrest] at h
      have hc : c = 'n' := by
        unfold matchNULL at h
        split at h
        · split at h
          next hpre =>
            rw [Bool.and_eq_true] at hpre
            have hp1 := hpre.1
            rw [show chars "null" = [ 'n', 'u', 'l', 'l' ] from rfl] at hp1
            simp only [List.isPrefixOf, Bool.and_eq_true, beq_iff_eq] at hp1
            exact hp1.1.symm
          next => cases h
        · cases h
      subst hc
      constructor
      · refine ⟨1 + (cs.takeWhile isIdCont).length, ?_⟩
        simp only [matchID]
        rw [if_pos (by decide : isIdStart 'n' = true)]
      · unfold normalHit
        rw [matchBOOLEAN_none_head (prevChar st) 'n' cs (by decide) (by decide), h]
        exact rfl

/-- Claim C5 witness: at the start of `"true\n"` the BOOLEAN pattern matches 4
characters, the identifier pattern also matches, and dispatch yields the
BOOLEAN token; at the start of `"null\n"` the NULL pattern matches 4
characters, the identifier pattern also matches, and dispatch yields the NULL
token. -/
theorem boolean_null_beat_id_witness :
    (matchBOOLEAN (prevChar ⟨chars "true\n", 0, 1, .INITIAL, [], 0⟩)
        ((chars "true\n").drop 0) = some 4 ∧
      ((∃ m, matchID ((chars "true\n").drop 0) = some m) ∧
        normalHit ⟨chars "true\n", 0, 1, .INITIAL, [], 0⟩ ((chars "true\n").drop 0) =
          .res (.toks (mkTok .BOOLEAN (.boolV true) 1 0) []
            ⟨chars "true\n", 4, 1, .INITIAL, [], 0⟩))) ∧
    (matchNULL (prevChar ⟨chars "null\n", 0, 1, .INITIAL, [], 0⟩)
        ((chars "null\n").drop 0) = some 4 ∧
      ((∃ m, matchID ((chars "null\n").drop 0) = some m) ∧
        normalHit ⟨chars "null\n", 0, 1, .INITIAL, [], 0⟩ ((chars "null\n").drop 0) =
          .res (.toks (mkTok .NULL .nullV 1 0) []
            ⟨chars "null\n", 4, 1, .INITIAL, [], 0⟩))) :=
  ⟨⟨by decide,
    (boolean_null_beat_id ⟨chars "true\n", 0, 1, .INITIAL, [], 0⟩ 4).1 (by decide)⟩,
   ⟨by decide,
    (boolean_null_beat_id ⟨chars "null\n", 0, 1, .INITIAL, [], 0⟩ 4).2 (by decide)⟩⟩

/-! ### Claim C6 -/

/-- Claim C6 (counterexample): after `"a\n"` the following physical line
`"   "` is blank in the sense of containing no non-whitespace characters, yet
the newline scan does evaluate its indentation: 3 is not divisible by 4 and the
whole scan aborts with the bad-indentation error (only truly empty lines are
skipped, since they are absorbed into the `\n+` run). -/
theorem blank_line_indent_error_cex :
    tokenize (chars "a\n   \n") = .error indentMsg := by decide

/-- Claim C6 (amended): when the newline run at the cursor extends to the end
of the input (every following line is empty), the scan emits exactly one
NEWLINE token covering the whole run, with no INDENT or DEDENT and
`cur_indent` unchanged. -/
theorem blank_line_at_eof_single_newline :
    ∀ (fuel : Nat) (st : LexState) (nls : List Char),
      st.mode = .INITIAL → st.data.drop st.pos = nls →
      nls.all isNl = true → nls ≠ [] →
      lexToken (fuel + 1) st =
        .toks (mkTok .NEWLINE (.str nls) st.lineno st.pos) []
          {st with pos := st.pos + nls.length,
                   lineno := st.lineno + nls.length} := by
  intro fuel st nls hm heq hn hne
  obtain ⟨c, cs, hcs⟩ := List.exists_cons_of_ne_nil hne
  subst hcs
  have hc : c = '\n' := by
    have hn2 := hn
    simp only [List.all_cons, Bool.and_eq_true] at hn2
    have hh := hn2.1
    simp only [isNl, beq_iff_eq] at hh
    exact hh
  subst hc
  have hmn : matchNEWLINE ('\n' :: cs) = some ('\n' :: cs).length := by
    unfold matchNEWLINE
    rw [takeWhile_all isNl ('\n' :: cs) hn]
    rw [if_neg (by simp)]
  rw [lexToken_cons fuel st '\n' cs heq]
  rw [if_neg (by decide : ¬(isSpaceTab '\n' = true))]
  rw [show stateHit st ('\n' :: cs) = normalHit st ('\n' :: cs) by
      simp [stateHit, hm]]
  rw [normalHit_newline st cs _ hmn]
  show actNEWLINE st ('\n' :: cs).length = _
  simp only [actNEWLINE]
  have hlex : lexemeAt st ('\n' :: cs).length = '\n' :: cs := by
    unfold lexemeAt
    rw [heq, List.take_length]
  rw [hlex]
  have hrest : st.data.drop (st.pos + ('\n' :: cs).length) = [] := by
    rw [← List.drop_drop ('\n' :: cs).length st.pos st.data, heq, List.drop_length]
  rw [hrest]
  rw [if_pos (show ([] : List Char).isEmpty = true from rfl)]
  rw [countNl_len_of_all ('\n' :: cs) hn]

/-- Claim C6 witness: a document that is two newlines yields the single
NEWLINE token `"\n\n"` and leaves `cur_indent` at 0. -/
theorem blank_line_at_eof_single_newline_witness :
    (([ '\n', '\n' ] : List Char).all isNl = true ∧
      ([ '\n', '\n' ] : List Char) ≠ []) ∧
    lexToken 4 ⟨[ '\n', '\n' ], 0, 1, .INITIAL, [], 0⟩ =
      .toks (mkTok .NEWLINE (.str [ '\n', '\n' ]) 1 0) []
        ⟨[ '\n', '\n' ], 2, 3, .INITIAL, [], 0⟩ :=
  ⟨⟨by decide, by decide⟩,
    blank_line_at_eof_single_newline 3 ⟨[ '\n', '\n' ], 0, 1, .INITIAL, [], 0⟩
      [ '\n', '\n' ] rfl rfl (by decide) (by decide)⟩

end Babel
